import Mathlib

/-!
Verification of the Auth0 management core of qwickapps/server-auth0-management.

The TypeScript sources are shallowly embedded:
* `src/src/management/triggers.ts` (`TriggersManager`) becomes pure functions
  from the current binding list to a `TriggerOutcome` (either "no write issued,
  this list returned" or "exactly one PATCH with this payload issued").
* `src/src/management/actions.ts` (`ActionsManager`) becomes functions
  parameterised over an `Auth0ManagementClient σ`, a record of the client
  methods the manager calls, each an explicit state transformer that may fail
  (`Except String`), so that one definition covers both an arbitrary
  (possibly throwing) client and a concrete remote-state model.
* the settings service sanitizer (`sanitizeErrorMessage`) becomes a character
  scanner implementing the source's three global regex replacements.
-/

namespace Auth0Mgmt

/-- The `action` object embedded in a trigger binding read from Auth0:
resolved action identifier and name (`TriggerBinding.action` in the client
types). -/
structure ActionRef where
  id : String
  name : String
  deriving Repr, DecidableEq

/-- A trigger binding as read back from the remote system: binding identifier,
resolved action reference, and an optional display name (`display_name` is
absent on some bindings). -/
structure TriggerBinding where
  id : String
  action : ActionRef
  display_name : Option String
  deriving Repr, DecidableEq

/-- One entry of a binding-list write (PATCH) payload:
`{ ref: { type: 'action_id', value }, display_name }`.  The `type` field is
the constant `'action_id'` in the source and is left implicit. -/
structure BindingUpdate where
  refValue : String
  display_name : String
  deriving Repr, DecidableEq

/-- JavaScript `a || b` on an optional string: the fallback is used when the
value is absent *or* empty (empty strings are falsy in JS). -/
def strOr (o : Option String) (d : String) : String :=
  match o with
  | none => d
  | some s => if s = "" then d else s

/-- `b => ({ ref: { type: 'action_id', value: b.action.id }, display_name:
b.display_name || b.action.name })` — the mapping `TriggersManager` applies to
every existing binding before writing. -/
def mkUpdate (b : TriggerBinding) : BindingUpdate :=
  { refValue := b.action.id, display_name := strOr b.display_name b.action.name }

/-- Outcome of one `TriggersManager` mutation: either no
`updateTriggerBindings` call was issued and `returned` is handed back, or
exactly one `updateTriggerBindings` call was issued with `payload`. -/
inductive TriggerOutcome where
  | noWrite (returned : List TriggerBinding)
  | write (payload : List BindingUpdate)
  deriving Repr, DecidableEq

/-- `Array.prototype.splice(i, 0, a)`: insert `a` at index `i`
(for `0 ≤ i ≤ l.length`). -/
def insertAt {α : Type} (l : List α) (i : Nat) (a : α) : List α :=
  l.take i ++ a :: l.drop i

/-- The new entry `bindToPostLogin` builds:
`{ ref: …actionId…, display_name: displayName || 'QwickApps Post-Login' }`. -/
def newPostLoginBinding (actionId : String) (displayName : Option String) :
    BindingUpdate :=
  { refValue := actionId
    display_name := strOr displayName "QwickApps Post-Login" }

/-- `TriggersManager.bindToPostLogin` (triggers.ts lines 30–64), as a function
of the binding list the initial `getTriggerBindings('post-login')` read
returned.  `position` is the optional JS number argument (modelled as an
integer). -/
def bindToPostLogin (current : List TriggerBinding) (actionId : String)
    (displayName : Option String) (position : Option Int) : TriggerOutcome :=
  if current.any (fun b => b.action.id == actionId) then
    TriggerOutcome.noWrite current
  else
    let newBinding := newPostLoginBinding actionId displayName
    let newBindings := current.map mkUpdate
    match position with
    | some p =>
      if 0 ≤ p ∧ p ≤ (newBindings.length : Int) then
        TriggerOutcome.write (insertAt newBindings p.toNat newBinding)
      else
        TriggerOutcome.write (newBindings ++ [newBinding])
    | none => TriggerOutcome.write (newBindings ++ [newBinding])

/-- `TriggersManager.unbindFromPostLogin` (triggers.ts lines 69–88). -/
def unbindFromPostLogin (current : List TriggerBinding) (actionId : String) :
    TriggerOutcome :=
  let newBindings :=
    (current.filter (fun b => !(b.action.id == actionId))).map mkUpdate
  if newBindings.length = current.length then
    TriggerOutcome.noWrite current
  else
    TriggerOutcome.write newBindings

/-- The lookup backing `new Map(currentBindings.map(b => [b.action.id, b]))`:
for a duplicated key a JS `Map` keeps the *last* entry, hence `getLast?`. -/
def bindingFor (current : List TriggerBinding) (actionId : String) :
    Option TriggerBinding :=
  (current.filter (fun b => b.action.id == actionId)).getLast?

/-- `TriggersManager.reorderPostLoginBindings` (triggers.ts lines 93–111):
`actionIds.filter(id => bindingMap.has(id)).map(id => …bindingMap.get(id)!…)`
is the `filterMap`; the write is issued unconditionally. -/
def reorderPostLoginBindings (current : List TriggerBinding)
    (actionIds : List String) : TriggerOutcome :=
  TriggerOutcome.write
    (actionIds.filterMap (fun i =>
      (bindingFor current i).map (fun b =>
        { refValue := i, display_name := strOr b.display_name b.action.name })))

/-- `TriggersManager.isActionBound` (triggers.ts lines 116–119). -/
def isActionBound (current : List TriggerBinding) (actionId : String) : Bool :=
  current.any (fun b => b.action.id == actionId)

/-- Action ids appearing in the payload of a write outcome (empty for a
no-write outcome); used to state membership properties of written lists. -/
def writtenIds (o : TriggerOutcome) : List String :=
  match o with
  | TriggerOutcome.write w => w.map (fun u => u.refValue)
  | TriggerOutcome.noWrite _ => []

/-! ### Deployment manager (`src/src/management/actions.ts`) -/

/-- An Auth0 action as returned by the Management API: remote-assigned
identifier and name (the two fields `ActionsManager` reads). -/
structure Auth0Action where
  id : String
  name : String
  deriving Repr, DecidableEq

/-- One secret name/value pair sent with a create or update. -/
structure ActionSecret where
  name : String
  value : String
  deriving Repr, DecidableEq

/-- Payload of `client.createAction` as built in `deployPostLoginAction`
(`supported_triggers` is the constant post-login trigger and is left
implicit). -/
structure CreateActionRequest where
  name : String
  code : String
  runtime : String
  secrets : List ActionSecret
  deriving Repr, DecidableEq

/-- Payload of `client.updateAction` as built in `deployPostLoginAction`. -/
structure UpdateActionRequest where
  code : String
  runtime : String
  secrets : List ActionSecret
  deriving Repr, DecidableEq

/-- The plugin configuration fields `ActionsManager` reads
(`Auth0ManagementPluginConfig`). -/
structure PluginConfig where
  callbackUrl : String
  callbackApiKey : String
  actionPrefixName : String
  metadataKey : String
  claimsNamespace : String
  callbackUrlSecretName : Option String
  callbackApiKeySecretName : Option String
  defaultTimeoutMs : Option Nat
  deriving Repr, DecidableEq

/-- `config.callbackUrlSecretName || DEFAULT_CALLBACK_URL_SECRET_NAME`
(constructor of `ActionsManager`). -/
def urlSecretNameOf (config : PluginConfig) : String :=
  strOr config.callbackUrlSecretName "API_URL"

/-- `config.callbackApiKeySecretName || DEFAULT_CALLBACK_API_KEY_SECRET_NAME`
(constructor of `ActionsManager`). -/
def keySecretNameOf (config : PluginConfig) : String :=
  strOr config.callbackApiKeySecretName "API_KEY"

/-- `getPostLoginActionMetadata(config).name`, i.e.
`config.actionNamePrefix + 'post-login'` (action-templates). -/
def renderedName (config : PluginConfig) : String :=
  config.actionPrefixName ++ "post-login"

/-- The rendered action source (`getPostLoginActionCode`).  The template body
is a large JS string none of the claims inspect; it is kept abstract as the
injected configuration values, which is all the managers pass along. -/
def renderedCode (config : PluginConfig) : String :=
  "post-login action code: " ++ config.metadataKey ++ " " ++
    config.claimsNamespace ++ " " ++ urlSecretNameOf config ++ " " ++
    keySecretNameOf config

/-- Options of `deployPostLoginAction` (absent flags are JS-falsy, so they
are modelled as plain booleans). -/
structure DeployOptions where
  skipBanCheck : Bool
  skipEntitlementsSync : Bool
  deriving Repr, DecidableEq

/-- `String(config.defaultTimeoutMs || 5000)`: `0` is falsy in JS, so both an
absent and a zero timeout render as 5000. -/
def timeoutValue (config : PluginConfig) : String :=
  match config.defaultTimeoutMs with
  | none => toString 5000
  | some n => if n = 0 then toString 5000 else toString n

/-- The secrets array built at the top of `deployPostLoginAction`
(actions.ts lines 66–78). -/
def buildSecrets (config : PluginConfig) (opts : DeployOptions) :
    List ActionSecret :=
  [ { name := urlSecretNameOf config, value := config.callbackUrl },
    { name := keySecretNameOf config, value := config.callbackApiKey },
    { name := "TIMEOUT_MS", value := timeoutValue config } ] ++
  (if opts.skipBanCheck then [{ name := "SKIP_BAN_CHECK", value := "true" }] else []) ++
  (if opts.skipEntitlementsSync then
    [{ name := "SKIP_ENTITLEMENTS_SYNC", value := "true" }] else [])

/-- `DeployResult` (types/index.ts): fields absent in a given TS result are
`none`. -/
structure DeployResult where
  success : Bool
  actionId : Option String
  deployed : Option Bool
  error : Option String
  deriving Repr, DecidableEq

/-- The result the catch-block of both manager operations builds:
`{ success: false, error: message }`. -/
def errResult (e : String) : DeployResult :=
  { success := false, actionId := none, deployed := none, error := some e }

/-- The client methods `ActionsManager` calls, over an abstract remote state
`σ`.  Each method advances the state and either returns a value or throws
(`Except.error` is a thrown exception's message).  Quantifying over this
record covers every behaviour of the underlying client. -/
structure Auth0ManagementClient (σ : Type) where
  listActions : σ → Except String (List Auth0Action) × σ
  createAction : CreateActionRequest → σ → Except String Auth0Action × σ
  updateAction : String → UpdateActionRequest → σ → Except String Auth0Action × σ
  deployAction : String → σ → Except String Unit × σ
  deleteAction : String → σ → Except String Unit × σ
  getTriggerBindings : String → σ → Except String (List TriggerBinding) × σ
  updateTriggerBindings :
    String → List BindingUpdate → σ → Except String (List TriggerBinding) × σ

/-- `ActionsManager.deployPostLoginAction` (actions.ts lines 56–118): render
code/metadata, build secrets, list actions, update the one whose name equals
the rendered name else create, then deploy; any thrown error becomes
`{ success: false, error }`. -/
def deployPostLoginAction {σ : Type} (config : PluginConfig)
    (opts : DeployOptions) (client : Auth0ManagementClient σ) (s : σ) :
    DeployResult × σ :=
  let code := renderedCode config
  let name := renderedName config
  let secrets := buildSecrets config opts
  match client.listActions s with
  | (Except.error e, s1) => (errResult e, s1)
  | (Except.ok existingActions, s1) =>
    let upsert :=
      match existingActions.find? (fun a => a.name == name) with
      | some existingAction =>
        client.updateAction existingAction.id
          { code := code, runtime := "node18", secrets := secrets } s1
      | none =>
        client.createAction
          { name := name, code := code, runtime := "node18", secrets := secrets } s1
    match upsert with
    | (Except.error e, s2) => (errResult e, s2)
    | (Except.ok action, s2) =>
      match client.deployAction action.id s2 with
      | (Except.error e, s3) => (errResult e, s3)
      | (Except.ok _, s3) =>
        ({ success := true, actionId := some action.id, deployed := some true,
           error := none }, s3)

/-- `ActionsManager.undeployPostLoginAction` (actions.ts lines 123–165):
re-find the action by rendered name; absent is an idempotent success;
otherwise filter it out of the post-login bindings, write the filtered list
back only when it changed, then delete the action. -/
def undeployPostLoginAction {σ : Type} (config : PluginConfig)
    (client : Auth0ManagementClient σ) (s : σ) : DeployResult × σ :=
  let name := renderedName config
  match client.listActions s with
  | (Except.error e, s1) => (errResult e, s1)
  | (Except.ok existingActions, s1) =>
    match existingActions.find? (fun a => a.name == name) with
    | none =>
      ({ success := true, actionId := none, deployed := some false,
         error := none }, s1)
    | some existingAction =>
      match client.getTriggerBindings "post-login" s1 with
      | (Except.error e, s2) => (errResult e, s2)
      | (Except.ok bindings, s2) =>
        let filteredBindings :=
          (bindings.filter (fun b => !(b.action.id == existingAction.id))).map
            mkUpdate
        let finish := fun (s' : σ) =>
          match client.deleteAction existingAction.id s' with
          | (Except.error e, s'') => (errResult e, s'')
          | (Except.ok _, s'') =>
            ({ success := true, actionId := some existingAction.id,
               deployed := some false, error := none }, s'')
        if filteredBindings.length ≠ bindings.length then
          match client.updateTriggerBindings "post-login" filteredBindings s2 with
          | (Except.error e, s3) => (errResult e, s3)
          | (Except.ok _, s3) => finish s3
        else
          finish s2

/-! ### A concrete remote model

A faithful happy-path model of the remote Management API, instrumented with a
trace of the client calls the managers issue, used to settle the sequential
deploy/undeploy claims.  `createAction` assigns a fresh identifier and appends;
`updateAction` keeps the stored identifier and name (the update payload
carries only code, runtime and secrets). -/

/-- One client call observed by the remote model. -/
inductive ClientEvent where
  | listedActions
  | createdAction (id name : String)
  | updatedAction (id : String)
  | deployedAction (id : String)
  | deletedAction (id : String)
  | readBindings
  | wroteBindings (payload : List BindingUpdate)
  deriving Repr, DecidableEq

/-- Remote tenant state: the stored actions, the post-login binding list, a
fresh-identifier counter, and the trace of client calls made so far. -/
structure RemoteState where
  actions : List Auth0Action
  bindings : List TriggerBinding
  nextId : Nat
  trace : List ClientEvent
  deriving Repr, DecidableEq

/-- `true` iff the event is a `createAction` call. -/
def ClientEvent.isCreate : ClientEvent → Bool
  | ClientEvent.createdAction _ _ => true
  | _ => false

/-- `true` iff the event is an `updateAction` call. -/
def ClientEvent.isUpdate : ClientEvent → Bool
  | ClientEvent.updatedAction _ => true
  | _ => false

/-- `true` iff the event is a binding-list write (`updateTriggerBindings`). -/
def ClientEvent.isBindingWrite : ClientEvent → Bool
  | ClientEvent.wroteBindings _ => true
  | _ => false

/-- `true` iff the event is a `deleteAction` call. -/
def ClientEvent.isDelete : ClientEvent → Bool
  | ClientEvent.deletedAction _ => true
  | _ => false

/-- The client calls made between an earlier state and a later state of the
same run (the trace only ever grows at the end). -/
def callsBetween (s s' : RemoteState) : List ClientEvent :=
  s'.trace.drop s.trace.length

/-- The happy-path remote: every call a manager makes against an id it just
read or created succeeds. -/
def happyClient : Auth0ManagementClient RemoteState where
  listActions s :=
    (Except.ok s.actions,
     { s with trace := s.trace ++ [ClientEvent.listedActions] })
  createAction p s :=
    let newId := "act_" ++ toString s.nextId
    let a : Auth0Action := { id := newId, name := p.name }
    (Except.ok a,
     { s with actions := s.actions ++ [a], nextId := s.nextId + 1,
              trace := s.trace ++ [ClientEvent.createdAction newId p.name] })
  updateAction id _ s :=
    (match s.actions.find? (fun a => a.id == id) with
     | some a => Except.ok a
     | none => Except.error "Not Found",
     { s with trace := s.trace ++ [ClientEvent.updatedAction id] })
  deployAction id s :=
    (if s.actions.any (fun a => a.id == id) then Except.ok ()
     else Except.error "Not Found",
     { s with trace := s.trace ++ [ClientEvent.deployedAction id] })
  deleteAction id s :=
    (Except.ok (),
     { s with actions := s.actions.filter (fun a => !(a.id == id)),
              trace := s.trace ++ [ClientEvent.deletedAction id] })
  getTriggerBindings _ s :=
    (Except.ok s.bindings,
     { s with trace := s.trace ++ [ClientEvent.readBindings] })
  updateTriggerBindings _ payload s :=
    let newBindings := payload.map (fun u =>
      { id := "bnd_" ++ u.refValue,
        action :=
          { id := u.refValue,
            name := match s.actions.find? (fun a => a.id == u.refValue) with
                    | some a => a.name
                    | none => "" },
        display_name := some u.display_name })
    (Except.ok newBindings,
     { s with bindings := newBindings,
              trace := s.trace ++ [ClientEvent.wroteBindings payload] })

/-! ### Credential-token cache -/

/-- Modelled from the spec: the cached bearer credential of §3/§4.1 — the
repository ships only the tests of `Auth0ManagementClient.getAccessToken`
(the client implementation file is not under `src/`), so the credential is a
token string plus an absolute expiry instant, per the spec's data model. -/
structure Auth0Credential where
  token : String
  expiresAt : Nat
  deriving Repr, DecidableEq

/-- Response of the `POST /oauth/token` endpoint: `access_token` and
`expires_in` seconds. -/
structure TokenEndpointResponse where
  accessToken : String
  expiresIn : Nat
  deriving Repr, DecidableEq

/-- Modelled from the spec: `getAccessToken` of §4.1 — the client source file
is not under `src/`.  "on call, if a cached credential exists and its expiry
has not passed, return it without any network call.  Otherwise issue a
client-credentials-grant POST …, compute expiry = now + expires_in seconds,
store it, and return the token."  `endpointResp` is what the token endpoint
would answer if called; the returned `Nat` counts the token-endpoint network
calls this invocation made (0 or 1), and the returned cache slot is the
client's cache after the call. -/
def getAccessToken (now : Nat) (cache : Option Auth0Credential)
    (endpointResp : Except String TokenEndpointResponse) :
    Except String String × Option Auth0Credential × Nat :=
  match cache with
  | some cred =>
    if now < cred.expiresAt then
      (Except.ok cred.token, some cred, 0)
    else
      match endpointResp with
      | Except.ok r =>
        (Except.ok r.accessToken,
         some { token := r.accessToken, expiresAt := now + r.expiresIn }, 1)
      | Except.error e => (Except.error e, none, 1)
  | none =>
    match endpointResp with
    | Except.ok r =>
      (Except.ok r.accessToken,
       some { token := r.accessToken, expiresAt := now + r.expiresIn }, 1)
    | Except.error e => (Except.error e, none, 1)

/-! ### Settings-service error sanitizer (`sanitizeErrorMessage`)

The source applies three global, case-insensitive regex replacements and then
truncates:

* `/"client_secret"\s*:\s*"[^"]*"/gi  → '"client_secret":"[REDACTED]"'`
* `/client_secret=[^&\s]*/gi          → 'client_secret=[REDACTED]'`
* `/Bearer\s+[A-Za-z0-9\-_]+\.[A-Za-z0-9\-_]+\.[A-Za-z0-9\-_]*/gi
                                      → 'Bearer [REDACTED]'`
* then `substring(0, 500) + '...'` when longer than 500 characters.

Each regex is implemented as a matcher on `List Char` returning the input
left over after a match at the current position; a scanner applies a matcher
at every position from the left, exactly like a `/g` replace (none of the
three patterns can match the empty string, so advancing past each match or by
one character on failure is the JS semantics). -/

/-- JS `\s` on the characters that can appear in our strings. -/
def isWS (c : Char) : Bool :=
  c = ' ' || c = '\t' || c = '\n' || c = '\x0d' || c = '\x0b' || c = '\x0c'

/-- A character of the JWT segment class `[A-Za-z0-9\-_]`. -/
def tokChar (c : Char) : Bool :=
  c.isAlphanum && c.toNat < 128 || c = '-' || c = '_'

/-- Case-insensitive literal match: `pat` is given lowercase; consumes
`pat.length` characters or fails. -/
def matchCI : List Char → List Char → Option (List Char)
  | [], rest => some rest
  | _ :: _, [] => none
  | p :: ps, c :: cs => if c.toLower = p then matchCI ps cs else none

/-- `\s*`: drop leading whitespace. -/
def skipWS : List Char → List Char
  | [] => []
  | c :: cs => if isWS c then skipWS cs else c :: cs

/-- `[^"]*"`: skip to the next double quote and consume it (greedy run of
non-quote characters followed by the literal quote). -/
def matchSecretValue : List Char → Option (List Char)
  | [] => none
  | c :: cs => if c = '"' then some cs else matchSecretValue cs

/-- The letters of `client_secret` (lowercase, for `matchCI`). -/
def secretPat : List Char :=
  ['c', 'l', 'i', 'e', 'n', 't', '_', 's', 'e', 'c', 'r', 'e', 't']

/-- The letters of `bearer` (lowercase, for `matchCI`). -/
def bearerPat : List Char := ['b', 'e', 'a', 'r', 'e', 'r']

/-- Matcher for `/"client_secret"\s*:\s*"[^"]*"/i` at the current position. -/
def tryMatchJsonSecret : List Char → Option (List Char)
  | [] => none
  | c :: rest =>
    if c = '"' then
      match matchCI secretPat rest with
      | some [] => none
      | some (c1 :: r2) =>
        if c1 = '"' then
          match skipWS r2 with
          | [] => none
          | c2 :: r3 =>
            if c2 = ':' then
              match skipWS r3 with
              | [] => none
              | c3 :: r4 => if c3 = '"' then matchSecretValue r4 else none
            else none
        else none
      | none => none
    else none

/-- Matcher for `/client_secret=[^&\s]*/i` at the current position. -/
def tryMatchQuerySecret (l : List Char) : Option (List Char) :=
  match matchCI secretPat l with
  | some [] => none
  | some (c :: r) =>
    if c = '=' then some (r.dropWhile (fun c => !(c = '&' || isWS c)))
    else none
  | none => none

/-- `[A-Za-z0-9\-_]+\.[A-Za-z0-9\-_]+\.[A-Za-z0-9\-_]*` (the JWT shape the
bearer regex requires; `.` is not a segment character, so the greedy runs are
deterministic). -/
def matchJwtTail (l : List Char) : Option (List Char) :=
  match l.takeWhile tokChar, l.dropWhile tokChar with
  | [], _ => none
  | _ :: _, c :: r2 =>
    if c = '.' then
      match r2.takeWhile tokChar, r2.dropWhile tokChar with
      | [], _ => none
      | _ :: _, c2 :: r4 =>
        if c2 = '.' then some (r4.dropWhile tokChar) else none
      | _, _ => none
    else none
  | _, _ => none

/-- Matcher for `/Bearer\s+[A-Za-z0-9\-_]+\.[A-Za-z0-9\-_]+\.[A-Za-z0-9\-_]*/i`
at the current position. -/
def tryMatchBearer (l : List Char) : Option (List Char) :=
  match matchCI bearerPat l with
  | some (c :: cs) => if isWS c then matchJwtTail (skipWS cs) else none
  | _ => none

/-- One global replace: try the matcher at every position from the left; on a
match emit the replacement and continue after the match.  `fuel` bounds the
recursion; with `fuel = input length` and a matcher that consumes at least one
character this is exactly the JS `/g` replace. -/
def replaceScan (tryM : List Char → Option (List Char)) (repl : List Char) :
    Nat → List Char → List Char
  | _, [] => []
  | 0, l => l
  | fuel + 1, c :: rest =>
    match tryM (c :: rest) with
    | some remaining => repl ++ replaceScan tryM repl fuel remaining
    | none => c :: replaceScan tryM repl fuel rest

/-- A global replace over a whole string's characters. -/
def replaceAll (tryM : List Char → Option (List Char)) (repl : List Char)
    (l : List Char) : List Char :=
  replaceScan tryM repl l.length l

/-- The replacement text `'"client_secret":"[REDACTED]"'` of the first
regex. -/
def jsonRedactedText : List Char :=
  '"' :: secretPat ++ '"' :: ':' :: '"' :: "[REDACTED]".data ++ ['"']

/-- The replacement text `'client_secret=[REDACTED]'` of the second regex. -/
def queryRedactedText : List Char :=
  secretPat ++ '=' :: "[REDACTED]".data

/-- The replacement text `'Bearer [REDACTED]'` of the third regex. -/
def bearerRedactedText : List Char := "Bearer [REDACTED]".data

/-- The first replace of `sanitizeErrorMessage` (JSON-form secrets). -/
def jsonPass (l : List Char) : List Char :=
  replaceAll tryMatchJsonSecret jsonRedactedText l

/-- The second replace of `sanitizeErrorMessage` (query-form secrets). -/
def queryPass (l : List Char) : List Char :=
  replaceAll tryMatchQuerySecret queryRedactedText l

/-- The third replace of `sanitizeErrorMessage` (JWT-shaped bearer
tokens). -/
def bearerPass (l : List Char) : List Char :=
  replaceAll tryMatchBearer bearerRedactedText l

/-- `if (sanitized.length > 500) sanitized = sanitized.substring(0,500)+'...'`. -/
def truncate500 (l : List Char) : List Char :=
  if l.length > 500 then l.take 500 ++ "...".data else l

/-- `Auth0SettingsService.sanitizeErrorMessage`: the three redactions in
source order, then truncation to 500 characters plus `...`. -/
def sanitizeErrorMessage (message : String) : String :=
  String.mk (truncate500 (bearerPass (queryPass (jsonPass message.data))))

/-- `true` iff the text contains, at some position, (case-insensitively)
`bearer`, then at least one whitespace character, then at least one character
of the bearer-token class — i.e. a surviving bearer token of any shape
(`[REDACTED]` starts with `[`, which is not in the token class, so a redacted
occurrence does not count). -/
def hasBearerToken : List Char → Bool
  | [] => false
  | c :: rest =>
    (match matchCI bearerPat (c :: rest) with
     | some (w :: ws) =>
       isWS w &&
         (match skipWS ws with
          | t :: _ => tokChar t
          | [] => false)
     | _ => false) ||
    hasBearerToken rest

/-! ### Helper lemmas -/

/-- A boolean membership test on binding action ids, unfolded to an
existential. -/
theorem any_actionId_eq (current : List TriggerBinding) (actionId : String) :
    current.any (fun b => b.action.id == actionId) = true ↔
      ∃ b ∈ current, b.action.id = actionId := by
  simp [List.any_eq_true]

/-! ### C2 -/

/-- C2: `bind(resourceId, displayName?, position?)` against a current list:
if `resourceId` is already bound the current list is returned with no write;
otherwise exactly one write is issued whose payload is the current list
mapped to reference/display-name pairs (each existing display name preserved,
falling back to the action's own name) with the new entry inserted at
`position` when `0 ≤ position ≤ length`, else appended at the end. -/
theorem bindToPostLogin_spec (current : List TriggerBinding)
    (actionId : String) (displayName : Option String) (position : Option Int) :
    ((∃ b ∈ current, b.action.id = actionId) →
      bindToPostLogin current actionId displayName position =
        TriggerOutcome.noWrite current) ∧
    ((∀ b ∈ current, b.action.id ≠ actionId) →
      (∀ p : Int, position = some p → 0 ≤ p → p ≤ (current.length : Int) →
        bindToPostLogin current actionId displayName position =
          TriggerOutcome.write
            ((current.map mkUpdate).take p.toNat ++
              newPostLoginBinding actionId displayName ::
                (current.map mkUpdate).drop p.toNat)) ∧
      ((position = none ∨
          ∃ p : Int, position = some p ∧ (p < 0 ∨ (current.length : Int) < p)) →
        bindToPostLogin current actionId displayName position =
          TriggerOutcome.write
            (current.map mkUpdate ++
              [newPostLoginBinding actionId displayName]))) := by
  constructor
  · intro h
    have hb : current.any (fun b => b.action.id == actionId) = true :=
      (any_actionId_eq current actionId).mpr h
    simp [bindToPostLogin, hb]
  · intro h
    have hb : current.any (fun b => b.action.id == actionId) = false := by
      rw [Bool.eq_false_iff]
      intro hc
      obtain ⟨b, hbmem, hbeq⟩ := (any_actionId_eq current actionId).mp hc
      exact h b hbmem hbeq
    constructor
    · intro p hp h0 hle
      subst hp
      have hcond : 0 ≤ p ∧ p ≤ (((current.map mkUpdate).length : Int)) := by
        simpa using ⟨h0, hle⟩
      simp only [bindToPostLogin, hb, Bool.false_eq_true, if_false]
      rw [if_pos hcond]
      rfl
    · rintro (hp | ⟨p, hp, hout⟩) <;> subst hp
      · simp [bindToPostLogin, hb]
      · have hcond : ¬ (0 ≤ p ∧ p ≤ (((current.map mkUpdate).length : Int))) := by
          simp only [List.length_map]
          rcases hout with h1 | h1
          · exact fun hc => absurd hc.1 (not_le.mpr h1)
          · exact fun hc => absurd hc.2 (not_le.mpr h1)
        simp only [bindToPostLogin, hb, Bool.false_eq_true, if_false]
        rw [if_neg hcond]

/-- Witness for C2 at the repository's own test vector: binding `action-3`
with display name `Action 3` at position 1 into `[action-1, action-2]` writes
`[action-1, action-3, action-2]`, and binding an already-bound id issues no
write. -/
theorem bindToPostLogin_spec_witness :
    bindToPostLogin
      [⟨"binding-1", ⟨"action-1", "Action 1"⟩, none⟩,
       ⟨"binding-2", ⟨"action-2", "Action 2"⟩, none⟩]
      "action-3" (some "Action 3") (some 1) =
      TriggerOutcome.write
        [⟨"action-1", "Action 1"⟩, ⟨"action-3", "Action 3"⟩,
         ⟨"action-2", "Action 2"⟩] ∧
    bindToPostLogin
      [⟨"binding-1", ⟨"action-1", "Action 1"⟩, none⟩]
      "action-1" none none =
      TriggerOutcome.noWrite
        [⟨"binding-1", ⟨"action-1", "Action 1"⟩, none⟩] := by
  constructor
  · have h :=
      ((bindToPostLogin_spec
        [⟨"binding-1", ⟨"action-1", "Action 1"⟩, none⟩,
         ⟨"binding-2", ⟨"action-2", "Action 2"⟩, none⟩]
        "action-3" (some "Action 3") (some 1)).2 (by decide)).1
        1 rfl (by decide) (by decide)
    simpa [mkUpdate, strOr, newPostLoginBinding] using h
  · exact (bindToPostLogin_spec
      [⟨"binding-1", ⟨"action-1", "Action 1"⟩, none⟩]
      "action-1" none none).1
      ⟨⟨"binding-1", ⟨"action-1", "Action 1"⟩, none⟩, by simp, rfl⟩

/-! ### C4 -/

/-- When the action ids of a binding list are pairwise distinct (the data
model's "at most one binding per (trigger, resource) pair") and some binding
matches `actionId`, filtering the matching binding out removes exactly one
entry. -/
theorem length_filter_ne_of_mem (current : List TriggerBinding)
    (actionId : String)
    (hnodup : (current.map (fun b => b.action.id)).Nodup)
    (hmem : ∃ b ∈ current, b.action.id = actionId) :
    (current.filter (fun b => !(b.action.id == actionId))).length + 1 =
      current.length := by
  induction current with
  | nil => simp at hmem
  | cons b t ih =>
    rw [List.map_cons, List.nodup_cons] at hnodup
    by_cases hb : b.action.id = actionId
    · have hall : ∀ x ∈ t, ¬(x.action.id = actionId) := by
        intro x hx hxeq
        exact hnodup.1 (by
          rw [hb, ← hxeq]
          exact List.mem_map_of_mem (fun b => b.action.id) hx)
      have hkeep : t.filter (fun b => !(b.action.id == actionId)) = t := by
        rw [List.filter_eq_self]
        intro x hx
        simpa using hall x hx
      simp [List.filter_cons, hb, hkeep]
    · obtain ⟨b', hb'mem, hb'eq⟩ := hmem
      rcases List.mem_cons.mp hb'mem with h | h
      · exact absurd (h ▸ hb'eq) hb
      · have := ih hnodup.2 ⟨b', h, hb'eq⟩
        simp [List.filter_cons, hb, this]

/-- C4: `unbind(resourceId)` against a current list with pairwise-distinct
action ids: when no binding matches, the original list is returned with no
write; when a binding matches, exactly one write is issued, its payload is the
filtered mapping of the current list, it excludes `resourceId`, and it has
exactly one fewer entry than the original. -/
theorem unbindFromPostLogin_spec (current : List TriggerBinding)
    (actionId : String)
    (hnodup : (current.map (fun b => b.action.id)).Nodup) :
    ((∀ b ∈ current, b.action.id ≠ actionId) →
      unbindFromPostLogin current actionId = TriggerOutcome.noWrite current) ∧
    ((∃ b ∈ current, b.action.id = actionId) →
      unbindFromPostLogin current actionId =
        TriggerOutcome.write
          ((current.filter (fun b => !(b.action.id == actionId))).map
            mkUpdate) ∧
      (∀ u ∈ (current.filter (fun b => !(b.action.id == actionId))).map
          mkUpdate, u.refValue ≠ actionId) ∧
      ((current.filter (fun b => !(b.action.id == actionId))).map
          mkUpdate).length + 1 = current.length) := by
  constructor
  · intro h
    have hkeep : current.filter (fun b => !(b.action.id == actionId)) =
        current := by
      rw [List.filter_eq_self]
      intro x hx
      simpa using h x hx
    simp [unbindFromPostLogin, hkeep]
  · intro hmem
    have hlen := length_filter_ne_of_mem current actionId hnodup hmem
    have hne :
        ((current.filter (fun b => !(b.action.id == actionId))).map
          mkUpdate).length ≠ current.length := by
      rw [List.length_map]
      omega
    have hunfold : unbindFromPostLogin current actionId =
        if ((current.filter (fun b => !(b.action.id == actionId))).map
              mkUpdate).length = current.length then
          TriggerOutcome.noWrite current
        else
          TriggerOutcome.write
            ((current.filter (fun b => !(b.action.id == actionId))).map
              mkUpdate) := rfl
    refine ⟨by rw [hunfold, if_neg hne], ?_, ?_⟩
    · intro u hu
      obtain ⟨b, hbmem, hbeq⟩ := List.mem_map.mp hu
      have := (List.mem_filter.mp hbmem).2
      simp only [Bool.not_eq_true', beq_eq_false_iff_ne, ne_eq] at this
      rw [← hbeq]
      exact this
    · rw [List.length_map]
      exact hlen

/-- Witness for C4 at the repository's own test vector: unbinding `action-1`
from `[action-1, action-2]` writes `[action-2]` (one fewer entry, excluding
the unbound id), and unbinding an id that is not bound issues no write. -/
theorem unbindFromPostLogin_spec_witness :
    unbindFromPostLogin
      [⟨"binding-1", ⟨"action-1", "Action 1"⟩, none⟩,
       ⟨"binding-2", ⟨"action-2", "Action 2"⟩, none⟩]
      "action-1" =
      TriggerOutcome.write [⟨"action-2", "Action 2"⟩] ∧
    unbindFromPostLogin
      [⟨"binding-1", ⟨"action-1", "Action 1"⟩, none⟩]
      "action-2" =
      TriggerOutcome.noWrite
        [⟨"binding-1", ⟨"action-1", "Action 1"⟩, none⟩] := by
  constructor
  · have h := (unbindFromPostLogin_spec
      [⟨"binding-1", ⟨"action-1", "Action 1"⟩, none⟩,
       ⟨"binding-2", ⟨"action-2", "Action 2"⟩, none⟩]
      "action-1" (by decide)).2
      ⟨⟨"binding-1", ⟨"action-1", "Action 1"⟩, none⟩, by simp, rfl⟩
    simpa [mkUpdate, strOr] using h.1
  · exact (unbindFromPostLogin_spec
      [⟨"binding-1", ⟨"action-1", "Action 1"⟩, none⟩]
      "action-2" (by decide)).1 (by decide)

/-! ### C10 -/

/-- C10: every write issued by `bind` or `unbind` preserves the relative
order of the bindings it does not touch: `bind`'s written payload contains
the mapped current bindings as a sublist in their original order and has
exactly one more entry (the one insertion), and `unbind`'s written payload is
the mapped filtering of the current list, a sublist of the mapped current
bindings in their original order. -/
theorem bind_unbind_preserve_order (current : List TriggerBinding)
    (actionId : String) (displayName : Option String) (position : Option Int) :
    (∀ w, bindToPostLogin current actionId displayName position =
        TriggerOutcome.write w →
      (current.map mkUpdate).Sublist w ∧
        w.length = (current.map mkUpdate).length + 1) ∧
    (∀ w, unbindFromPostLogin current actionId = TriggerOutcome.write w →
      w = (current.filter (fun b => !(b.action.id == actionId))).map
        mkUpdate ∧
      w.Sublist (current.map mkUpdate)) := by
  constructor
  · intro w hw
    have hins : ∀ n : Nat,
        (current.map mkUpdate).Sublist
          (insertAt (current.map mkUpdate) n
            (newPostLoginBinding actionId displayName)) ∧
        (insertAt (current.map mkUpdate) n
            (newPostLoginBinding actionId displayName)).length =
          (current.map mkUpdate).length + 1 := by
      intro n
      constructor
      · conv_lhs => rw [← List.take_append_drop n (current.map mkUpdate)]
        exact List.Sublist.append_left (List.sublist_cons_self _ _) _
      · have hn : n ≤ (current.map mkUpdate).length ∨
            (current.map mkUpdate).length < n := le_or_lt _ _
        simp only [insertAt, List.length_append, List.length_take,
          List.length_cons, List.length_drop]
        omega
    simp only [bindToPostLogin] at hw
    split at hw
    · cases hw
    · split at hw
      · split at hw
        · cases hw
          exact hins _
        · cases hw
          have h := hins (current.map mkUpdate).length
          simpa [insertAt] using h
      · cases hw
        have h := hins (current.map mkUpdate).length
        simpa [insertAt] using h
  · intro w hw
    simp only [unbindFromPostLogin] at hw
    split at hw
    · cases hw
    · cases hw
      exact ⟨rfl, List.Sublist.map mkUpdate (List.filter_sublist current)⟩

/-- Witness for C10: binding `action-3` at position 1 into
`[action-1, action-2]` keeps the two mapped existing entries in order as a
sublist of the three-entry write, and unbinding `action-1` from the same list
writes the order-preserving filtered payload. -/
theorem bind_unbind_preserve_order_witness :
    (([⟨"action-1", "Action 1"⟩, ⟨"action-2", "Action 2"⟩] :
        List BindingUpdate).Sublist
      [⟨"action-1", "Action 1"⟩, ⟨"action-3", "Action 3"⟩,
       ⟨"action-2", "Action 2"⟩] ∧
      ([⟨"action-1", "Action 1"⟩, ⟨"action-3", "Action 3"⟩,
        ⟨"action-2", "Action 2"⟩] : List BindingUpdate).length = 2 + 1) ∧
    (([⟨"action-2", "Action 2"⟩] : List BindingUpdate) =
      (([⟨"binding-1", ⟨"action-1", "Action 1"⟩, none⟩,
         ⟨"binding-2", ⟨"action-2", "Action 2"⟩, none⟩] :
          List TriggerBinding).filter
        (fun b => !(b.action.id == "action-1"))).map mkUpdate ∧
      ([⟨"action-2", "Action 2"⟩] : List BindingUpdate).Sublist
        [⟨"action-1", "Action 1"⟩, ⟨"action-2", "Action 2"⟩]) := by
  have h := bind_unbind_preserve_order
    [⟨"binding-1", ⟨"action-1", "Action 1"⟩, none⟩,
     ⟨"binding-2", ⟨"action-2", "Action 2"⟩, none⟩]
    "action-1" (some "Action 3") (some 1)
  have h3 := bind_unbind_preserve_order
    [⟨"binding-1", ⟨"action-1", "Action 1"⟩, none⟩,
     ⟨"binding-2", ⟨"action-2", "Action 2"⟩, none⟩]
    "action-3" (some "Action 3") (some 1)
  constructor
  · have hb := h3.1
      [⟨"action-1", "Action 1"⟩, ⟨"action-3", "Action 3"⟩,
       ⟨"action-2", "Action 2"⟩] (by rfl)
    simpa [mkUpdate, strOr] using hb
  · have hu := h.2 [⟨"action-2", "Action 2"⟩] (by rfl)
    simpa [mkUpdate, strOr] using hu

/-! ### C3 -/

/-- The membership half of claim C3 as stated: for every current binding list
and every input id list, the written list binds exactly the resources bound
before the call. -/
def reorderKeepsMembership : Prop :=
  ∀ (current : List TriggerBinding) (actionIds : List String) (x : String),
    x ∈ writtenIds (reorderPostLoginBindings current actionIds) ↔
      x ∈ current.map (fun b => b.action.id)

/-- C3 as stated is false: reordering with an input list that omits a bound
id drops that binding from the written list — `reorder([])` against a current
list binding `action-1` writes the empty list, so membership is not
preserved. -/
theorem reorderPostLoginBindings_membership_cex : ¬ reorderKeepsMembership := by
  intro h
  have hx := (h [⟨"binding-1", ⟨"action-1", "Action 1"⟩, none⟩] []
    "action-1").mpr (by simp)
  simp [writtenIds, reorderPostLoginBindings] at hx

/-- A bound id is looked up successfully by the reorder map. -/
theorem bindingFor_isSome (current : List TriggerBinding) (x : String) :
    (bindingFor current x).isSome = true ↔
      ∃ b ∈ current, b.action.id = x := by
  rw [bindingFor, List.getLast?_isSome]
  constructor
  · intro hne
    have := (not_iff_not.mpr (List.filter_eq_nil_iff
      (l := current) (p := fun b => b.action.id == x))).mp hne
    push_neg at this
    obtain ⟨b, hbmem, hb⟩ := this
    exact ⟨b, hbmem, by simpa using hb⟩
  · rintro ⟨b, hbmem, hb⟩ hnil
    exact ((List.filter_eq_nil_iff).mp hnil) b hbmem (by simpa using hb)

/-- C3 corrected: `reorder` always issues exactly one write (never a
short-circuit); the written ids are exactly the input ids that are currently
bound, in the caller-supplied order (ids without a matching binding are
silently dropped); consequently, whenever the input covers every bound id —
in particular when it is a permutation of the bound ids — membership is
unchanged and only positions follow the caller-supplied order. -/
theorem reorderPostLoginBindings_amended (current : List TriggerBinding)
    (actionIds : List String) :
    (∃ w, reorderPostLoginBindings current actionIds =
      TriggerOutcome.write w) ∧
    writtenIds (reorderPostLoginBindings current actionIds) =
      actionIds.filter (fun i => (bindingFor current i).isSome) ∧
    ((∀ b ∈ current, b.action.id ∈ actionIds) →
      ∀ x : String,
        x ∈ writtenIds (reorderPostLoginBindings current actionIds) ↔
          x ∈ current.map (fun b => b.action.id)) := by
  have hids : writtenIds (reorderPostLoginBindings current actionIds) =
      actionIds.filter (fun i => (bindingFor current i).isSome) := by
    induction actionIds with
    | nil => rfl
    | cons i t ih =>
      simp only [reorderPostLoginBindings, writtenIds,
        List.filterMap_cons] at ih ⊢
      cases h : bindingFor current i with
      | none => simpa [h, List.filter_cons] using ih
      | some b => simpa [h, List.filter_cons] using ih
  refine ⟨⟨_, rfl⟩, hids, ?_⟩
  intro hcover x
  rw [hids]
  constructor
  · intro hx
    obtain ⟨hxin, hxsome⟩ := List.mem_filter.mp hx
    obtain ⟨b, hbmem, hb⟩ := (bindingFor_isSome current x).mp hxsome
    exact List.mem_map.mpr ⟨b, hbmem, hb⟩
  · intro hx
    obtain ⟨b, hbmem, hb⟩ := List.mem_map.mp hx
    refine List.mem_filter.mpr ⟨hb ▸ hcover b hbmem, ?_⟩
    exact (bindingFor_isSome current x).mpr ⟨b, hbmem, hb⟩

/-- Witness for C3 (corrected) at the repository's own test vector:
`reorder([action-3, action-1, action-2])` against the three bound actions
writes exactly that order, and membership is preserved because the input
covers the bound ids. -/
theorem reorderPostLoginBindings_amended_witness :
    writtenIds (reorderPostLoginBindings
      [⟨"binding-1", ⟨"action-1", "Action 1"⟩, none⟩,
       ⟨"binding-2", ⟨"action-2", "Action 2"⟩, none⟩,
       ⟨"binding-3", ⟨"action-3", "Action 3"⟩, none⟩]
      ["action-3", "action-1", "action-2"]) =
      ["action-3", "action-1", "action-2"] ∧
    ("action-2" ∈ writtenIds (reorderPostLoginBindings
      [⟨"binding-1", ⟨"action-1", "Action 1"⟩, none⟩,
       ⟨"binding-2", ⟨"action-2", "Action 2"⟩, none⟩,
       ⟨"binding-3", ⟨"action-3", "Action 3"⟩, none⟩]
      ["action-3", "action-1", "action-2"]) ↔
      "action-2" ∈
        ([⟨"binding-1", ⟨"action-1", "Action 1"⟩, none⟩,
          ⟨"binding-2", ⟨"action-2", "Action 2"⟩, none⟩,
          ⟨"binding-3", ⟨"action-3", "Action 3"⟩, none⟩] :
            List TriggerBinding).map (fun b => b.action.id)) := by
  have h := reorderPostLoginBindings_amended
    [⟨"binding-1", ⟨"action-1", "Action 1"⟩, none⟩,
     ⟨"binding-2", ⟨"action-2", "Action 2"⟩, none⟩,
     ⟨"binding-3", ⟨"action-3", "Action 3"⟩, none⟩]
    ["action-3", "action-1", "action-2"]
  constructor
  · rw [h.2.1]
    decide
  · exact h.2.2 (by decide) "action-2"

/-! ### C8 -/

/-- Everything the caller supplies to a `bind` call or the core read back for
it: the resource id, the caller's display name (when given), and the ids,
names and recorded display names of the current bindings.  A display name
"derived from caller-supplied configuration or from data read back" must be
one of these strings (`TriggersManager` takes no naming configuration). -/
def bindCallStrings (current : List TriggerBinding) (actionId : String)
    (displayName : Option String) : List String :=
  actionId ::
    (displayName.toList ++
      current.flatMap (fun b =>
        b.action.id :: b.action.name :: b.display_name.toList))

/-- Claim C8 restricted to the cited code: every display name `bind` writes
is derived from the caller-supplied arguments or from data read back. -/
def bindNamesCallerDerived : Prop :=
  ∀ (current : List TriggerBinding) (actionId : String)
    (displayName : Option String) (position : Option Int)
    (w : List BindingUpdate),
    bindToPostLogin current actionId displayName position =
      TriggerOutcome.write w →
    ∀ u ∈ w, u.display_name ∈ bindCallStrings current actionId displayName

/-- Any member of an `insertAt` result is the inserted element or a member of
the original list. -/
theorem mem_insertAt {α : Type} (l : List α) (n : Nat) (a x : α)
    (hx : x ∈ insertAt l n a) : x = a ∨ x ∈ l := by
  simp only [insertAt] at hx
  rcases List.mem_append.mp hx with h | h
  · exact Or.inr (List.take_subset _ _ h)
  · rcases List.mem_cons.mp h with h | h
    · exact Or.inl h
    · exact Or.inr (List.drop_subset _ _ h)

/-- Every entry of a payload `bind` writes is either the newly built binding
or the mapping of one of the current bindings. -/
theorem bindToPostLogin_write_members (current : List TriggerBinding)
    (actionId : String) (displayName : Option String) (position : Option Int)
    (w : List BindingUpdate)
    (hw : bindToPostLogin current actionId displayName position =
      TriggerOutcome.write w) :
    ∀ u ∈ w, u = newPostLoginBinding actionId displayName ∨
      ∃ b ∈ current, u = mkUpdate b := by
  have hmap : ∀ u ∈ current.map mkUpdate, ∃ b ∈ current, u = mkUpdate b := by
    intro u hu
    obtain ⟨b, hb, he⟩ := List.mem_map.mp hu
    exact ⟨b, hb, he.symm⟩
  have happ : ∀ u ∈ current.map mkUpdate ++
      [newPostLoginBinding actionId displayName],
      u = newPostLoginBinding actionId displayName ∨
        ∃ b ∈ current, u = mkUpdate b := by
    intro u hu
    rcases List.mem_append.mp hu with h | h
    · exact Or.inr (hmap u h)
    · exact Or.inl (by simpa using h)
  simp only [bindToPostLogin] at hw
  split at hw
  · cases hw
  · split at hw
    · split at hw
      · cases hw
        intro u hu
        rcases mem_insertAt _ _ _ _ hu with h | h
        · exact Or.inl h
        · exact Or.inr (hmap u h)
      · cases hw
        exact happ
    · cases hw
      exact happ

/-- C8 as stated is false on the code: `bind` with no caller-supplied display
name writes the hard-coded product name `QwickApps Post-Login`, a string
appearing nowhere in the call's inputs. -/
theorem bindToPostLogin_hardcoded_name_cex : ¬ bindNamesCallerDerived := by
  intro h
  have hm := h [] "action-1" none none
    [⟨"action-1", "QwickApps Post-Login"⟩] rfl
    ⟨"action-1", "QwickApps Post-Login"⟩ (by simp)
  simp [bindCallStrings] at hm

/-- C8 corrected: every display name the binding manager writes is derived
from the caller-supplied arguments or from the bindings read back, except
that `bind` falls back to the hard-coded default `QwickApps Post-Login` when
the caller supplies no (or an empty) display name. -/
theorem bindToPostLogin_names_amended (current : List TriggerBinding)
    (actionId : String) (displayName : Option String) (position : Option Int)
    (w : List BindingUpdate)
    (hw : bindToPostLogin current actionId displayName position =
      TriggerOutcome.write w) :
    ∀ u ∈ w, u.display_name ∈ bindCallStrings current actionId displayName ∨
      u.display_name = "QwickApps Post-Login" := by
  intro u hu
  rcases bindToPostLogin_write_members current actionId displayName position
    w hw u hu with h | ⟨b, hb, he⟩
  · subst h
    cases displayName with
    | none => exact Or.inr rfl
    | some s =>
      by_cases hs : s = ""
      · exact Or.inr (by simp [newPostLoginBinding, strOr, hs])
      · refine Or.inl ?_
        simp only [newPostLoginBinding, strOr, if_neg hs, bindCallStrings]
        exact List.mem_cons_of_mem _ (List.mem_append_left _ (by simp))
  · subst he
    refine Or.inl (List.mem_cons_of_mem _ (List.mem_append_right _ ?_))
    cases hdn : b.display_name with
    | none =>
      refine List.mem_flatMap.mpr ⟨b, hb, ?_⟩
      simp [mkUpdate, strOr, hdn]
    | some s =>
      by_cases hs : s = ""
      · refine List.mem_flatMap.mpr ⟨b, hb, ?_⟩
        simp [mkUpdate, strOr, hdn, hs]
      · refine List.mem_flatMap.mpr ⟨b, hb, ?_⟩
        simp [mkUpdate, strOr, hdn, hs]

/-- Witness for C8 (corrected): with no display name supplied, the written
entry's display name is the hard-coded default; with one supplied, it is
among the call's inputs. -/
theorem bindToPostLogin_names_amended_witness :
    (BindingUpdate.display_name ⟨"action-1", "QwickApps Post-Login"⟩ ∈
        bindCallStrings [] "action-1" none ∨
      BindingUpdate.display_name ⟨"action-1", "QwickApps Post-Login"⟩ =
        "QwickApps Post-Login") ∧
    (BindingUpdate.display_name ⟨"action-1", "Action 1"⟩ ∈
        bindCallStrings [] "action-1" (some "Action 1") ∨
      BindingUpdate.display_name ⟨"action-1", "Action 1"⟩ =
        "QwickApps Post-Login") := by
  constructor
  · exact bindToPostLogin_names_amended [] "action-1" none none
      [⟨"action-1", "QwickApps Post-Login"⟩] rfl
      ⟨"action-1", "QwickApps Post-Login"⟩ (by simp)
  · exact bindToPostLogin_names_amended [] "action-1" (some "Action 1") none
      [⟨"action-1", "Action 1"⟩] rfl
      ⟨"action-1", "Action 1"⟩ (by simp)

/-! ### C5 -/

/-- C5: `deployPostLoginAction` never throws: for every behaviour of the
underlying client (each call may return or throw arbitrarily) the operation
returns a `DeployResult` — a success carrying the deployed action id, or the
catch-block's `{ success: false, error: message }` with the first failing
step's message. -/
theorem deployPostLoginAction_no_throw {σ : Type} (config : PluginConfig)
    (opts : DeployOptions) (client : Auth0ManagementClient σ) (s : σ) :
    (∃ id s', deployPostLoginAction config opts client s =
      ({ success := true, actionId := some id, deployed := some true,
         error := none }, s')) ∨
    ∃ e s', deployPostLoginAction config opts client s = (errResult e, s') := by
  rcases hls : client.listActions s with ⟨r1, s1⟩
  cases r1 with
  | error e => exact Or.inr ⟨e, s1, by simp [deployPostLoginAction, hls]⟩
  | ok actions =>
    rcases hf : actions.find? (fun a => a.name == renderedName config)
      with _ | ea
    · rcases hc : client.createAction
        { name := renderedName config, code := renderedCode config,
          runtime := "node18", secrets := buildSecrets config opts } s1
        with ⟨r2, s2⟩
      cases r2 with
      | error e =>
        exact Or.inr ⟨e, s2, by simp [deployPostLoginAction, hls, hf, hc]⟩
      | ok action =>
        rcases hd : client.deployAction action.id s2 with ⟨r3, s3⟩
        cases r3 with
        | error e =>
          exact Or.inr ⟨e, s3,
            by simp [deployPostLoginAction, hls, hf, hc, hd]⟩
        | ok u =>
          exact Or.inl ⟨action.id, s3,
            by simp [deployPostLoginAction, hls, hf, hc, hd]⟩
    · rcases hu : client.updateAction ea.id
        { code := renderedCode config, runtime := "node18",
          secrets := buildSecrets config opts } s1 with ⟨r2, s2⟩
      cases r2 with
      | error e =>
        exact Or.inr ⟨e, s2, by simp [deployPostLoginAction, hls, hf, hu]⟩
      | ok action =>
        rcases hd : client.deployAction action.id s2 with ⟨r3, s3⟩
        cases r3 with
        | error e =>
          exact Or.inr ⟨e, s3,
            by simp [deployPostLoginAction, hls, hf, hu, hd]⟩
        | ok u =>
          exact Or.inl ⟨action.id, s3,
            by simp [deployPostLoginAction, hls, hf, hu, hd]⟩

/-! ### C6 -/

/-- C6: when no remote action carries the rendered name,
`undeployPostLoginAction` returns `{ success: true, deployed: false }` and
performs no binding-list write and no delete call — the only client call made
is the initial action listing, and the remote actions and bindings are left
untouched. -/
theorem undeployPostLoginAction_absent (config : PluginConfig)
    (st : RemoteState)
    (habs : ∀ a ∈ st.actions, a.name ≠ renderedName config) :
    (undeployPostLoginAction config happyClient st).1 =
      { success := true, actionId := none, deployed := some false,
        error := none } ∧
    (undeployPostLoginAction config happyClient st).2.actions = st.actions ∧
    (undeployPostLoginAction config happyClient st).2.bindings =
      st.bindings ∧
    callsBetween st (undeployPostLoginAction config happyClient st).2 =
      [ClientEvent.listedActions] ∧
    (callsBetween st (undeployPostLoginAction config happyClient st).2).filter
      ClientEvent.isBindingWrite = [] ∧
    (callsBetween st (undeployPostLoginAction config happyClient st).2).filter
      ClientEvent.isDelete = [] := by
  have hf : st.actions.find? (fun a => a.name == renderedName config) =
      none := by
    rw [List.find?_eq_none]
    intro a ha
    simpa using habs a ha
  have hred : undeployPostLoginAction config happyClient st =
      ({ success := true, actionId := none, deployed := some false,
         error := none },
       { st with trace := st.trace ++ [ClientEvent.listedActions] }) := by
    simp [undeployPostLoginAction, happyClient, hf]
  rw [hred]
  refine ⟨rfl, rfl, rfl, ?_, ?_, ?_⟩ <;>
    simp [callsBetween, List.drop_left, ClientEvent.isBindingWrite,
      ClientEvent.isDelete]

/-- Witness for C6: undeploying against a tenant holding one unrelated action
is a successful no-op that only lists actions. -/
theorem undeployPostLoginAction_absent_witness :
    (undeployPostLoginAction
      ⟨"https://api.example.com", "api-key", "qwickapps-", "qwickapps",
       "https://qwickapps.com", none, none, none⟩
      happyClient
      ⟨[⟨"act_0", "other-action"⟩], [], 1, []⟩).1 =
      { success := true, actionId := none, deployed := some false,
        error := none } ∧
    callsBetween ⟨[⟨"act_0", "other-action"⟩], [], 1, []⟩
      (undeployPostLoginAction
        ⟨"https://api.example.com", "api-key", "qwickapps-", "qwickapps",
         "https://qwickapps.com", none, none, none⟩
        happyClient
        ⟨[⟨"act_0", "other-action"⟩], [], 1, []⟩).2 =
      [ClientEvent.listedActions] := by
  have h := undeployPostLoginAction_absent
    ⟨"https://api.example.com", "api-key", "qwickapps-", "qwickapps",
     "https://qwickapps.com", none, none, none⟩
    ⟨[⟨"act_0", "other-action"⟩], [], 1, []⟩
    (by decide)
  exact ⟨h.1, h.2.2.2.1⟩

/-! ### C1 -/

/-- `find?` skips a prefix none of whose elements satisfy the predicate. -/
theorem find?_append_of_none {α : Type} (l₁ l₂ : List α) (p : α → Bool)
    (h : ∀ x ∈ l₁, p x = false) :
    (l₁ ++ l₂).find? p = l₂.find? p := by
  induction l₁ with
  | nil => rfl
  | cons a t ih =>
    rw [List.cons_append, List.find?_cons, h a (List.mem_cons_self a t)]
    exact ih (fun x hx => h x (List.mem_cons_of_mem a hx))

/-- First happy-path deploy against a tenant with no action of the rendered
name: one list, one create with a fresh id, one activation. -/
theorem deploy_happy_absent (config : PluginConfig) (opts : DeployOptions)
    (st0 : RemoteState)
    (habs : ∀ a ∈ st0.actions, a.name ≠ renderedName config) :
    deployPostLoginAction config opts happyClient st0 =
      ({ success := true, actionId := some ("act_" ++ toString st0.nextId),
         deployed := some true, error := none },
       { actions := st0.actions ++
           [⟨"act_" ++ toString st0.nextId, renderedName config⟩],
         bindings := st0.bindings,
         nextId := st0.nextId + 1,
         trace := st0.trace ++
           [ClientEvent.listedActions,
            ClientEvent.createdAction ("act_" ++ toString st0.nextId)
              (renderedName config),
            ClientEvent.deployedAction ("act_" ++ toString st0.nextId)] }) := by
  have hf : st0.actions.find? (fun a => a.name == renderedName config) =
      none := by
    rw [List.find?_eq_none]
    intro a ha
    simpa using habs a ha
  have hex : ∃ x ∈ st0.actions ++
      [(⟨"act_" ++ toString st0.nextId, renderedName config⟩ : Auth0Action)],
      x.id = "act_" ++ toString st0.nextId :=
    ⟨⟨"act_" ++ toString st0.nextId, renderedName config⟩, by simp, rfl⟩
  simp [deployPostLoginAction, happyClient, hf, hex]
  rw [if_pos hex]

/-- Happy-path deploy against a tenant already holding the action found by
the rendered name: one list, one in-place update, one activation; the stored
actions are unchanged. -/
theorem deploy_happy_present (config : PluginConfig) (opts : DeployOptions)
    (st : RemoteState) (a : Auth0Action)
    (hfind : st.actions.find? (fun x => x.name == renderedName config) =
      some a) :
    deployPostLoginAction config opts happyClient st =
      ({ success := true, actionId := some a.id, deployed := some true,
         error := none },
       { st with trace := st.trace ++
           [ClientEvent.listedActions, ClientEvent.updatedAction a.id,
            ClientEvent.deployedAction a.id] }) := by
  have hamem : a ∈ st.actions := List.mem_of_find?_eq_some hfind
  have hidsome : (st.actions.find? (fun x => x.id == a.id)).isSome := by
    rw [List.find?_isSome]
    exact ⟨a, hamem, by simp⟩
  obtain ⟨b, hb⟩ := Option.isSome_iff_exists.mp hidsome
  have hbid : b.id = a.id := by
    have := List.find?_some hb
    simpa using this
  have hbmem : b ∈ st.actions := List.mem_of_find?_eq_some hb
  have hex : ∃ x ∈ st.actions, x.id = a.id := ⟨a, hamem, rfl⟩
  simp [deployPostLoginAction, happyClient, hfind, hb, hbid, hex]

/-- C1: two sequential `deploy` calls with the same configuration and no
intervening external change converge on one remote resource: when the action
is initially absent the first call issues exactly one create (and no update),
the second call issues exactly one update (and no create) of that same
action, both report the same `actionId`, and afterwards exactly one remote
action carries the rendered name. -/
theorem deployPostLoginAction_idempotent (config : PluginConfig)
    (opts : DeployOptions) (st0 : RemoteState)
    (habs : ∀ a ∈ st0.actions, a.name ≠ renderedName config) :
    (deployPostLoginAction config opts happyClient st0).1.success = true ∧
    (deployPostLoginAction config opts happyClient
      (deployPostLoginAction config opts happyClient st0).2).1.success =
        true ∧
    (deployPostLoginAction config opts happyClient st0).1.actionId =
      (deployPostLoginAction config opts happyClient
        (deployPostLoginAction config opts happyClient st0).2).1.actionId ∧
    (deployPostLoginAction config opts happyClient st0).1.actionId =
      some ("act_" ++ toString st0.nextId) ∧
    (callsBetween st0
        (deployPostLoginAction config opts happyClient st0).2).filter
      ClientEvent.isCreate =
      [ClientEvent.createdAction ("act_" ++ toString st0.nextId)
        (renderedName config)] ∧
    (callsBetween st0
        (deployPostLoginAction config opts happyClient st0).2).filter
      ClientEvent.isUpdate = [] ∧
    (callsBetween (deployPostLoginAction config opts happyClient st0).2
        (deployPostLoginAction config opts happyClient
          (deployPostLoginAction config opts happyClient st0).2).2).filter
      ClientEvent.isCreate = [] ∧
    (callsBetween (deployPostLoginAction config opts happyClient st0).2
        (deployPostLoginAction config opts happyClient
          (deployPostLoginAction config opts happyClient st0).2).2).filter
      ClientEvent.isUpdate =
      [ClientEvent.updatedAction ("act_" ++ toString st0.nextId)] ∧
    ((deployPostLoginAction config opts happyClient
        (deployPostLoginAction config opts happyClient st0).2).2.actions.filter
      (fun a => a.name == renderedName config)).length = 1 := by
  have h1 := deploy_happy_absent config opts st0 habs
  set newId := "act_" ++ toString st0.nextId with hnew
  set a1 : Auth0Action := ⟨newId, renderedName config⟩ with ha1
  have hfind1 : ((deployPostLoginAction config opts happyClient st0).2).actions.find?
      (fun x => x.name == renderedName config) = some a1 := by
    rw [h1]
    show (st0.actions ++ [a1]).find? (fun x => x.name == renderedName config) =
      some a1
    rw [find?_append_of_none st0.actions [a1]
      (fun x => x.name == renderedName config)
      (fun x hx => by simpa using habs x hx)]
    simp
  have h2 := deploy_happy_present config opts
    (deployPostLoginAction config opts happyClient st0).2 a1 hfind1
  refine ⟨by rw [h1], by rw [h2], by rw [h2, h1], by rw [h1], ?_, ?_, ?_, ?_, ?_⟩
  · rw [h1]
    simp [callsBetween, ClientEvent.isCreate, ClientEvent.isUpdate,
      List.drop_left]
  · rw [h1]
    simp [callsBetween, ClientEvent.isCreate, ClientEvent.isUpdate,
      List.drop_left]
  · rw [h2]
    simp [callsBetween, ClientEvent.isCreate, ClientEvent.isUpdate,
      List.drop_left]
  · rw [h2]
    simp [callsBetween, ClientEvent.isCreate, ClientEvent.isUpdate,
      List.drop_left]
  · rw [h2, h1]
    show ((st0.actions ++ [a1]).filter
      (fun a => a.name == renderedName config)).length = 1
    rw [List.filter_append]
    have hnil : st0.actions.filter (fun a => a.name == renderedName config) =
        [] := by
      rw [List.filter_eq_nil_iff]
      intro a ha
      simpa using habs a ha
    rw [hnil]
    simp

/-- Witness for C1: deploying twice from an empty tenant creates `act_0`
once, then updates it once, with both results reporting `act_0`. -/
theorem deployPostLoginAction_idempotent_witness :
    (deployPostLoginAction
      ⟨"https://api.example.com", "api-key", "qwickapps-", "qwickapps",
       "https://qwickapps.com", none, none, none⟩
      ⟨false, false⟩ happyClient ⟨[], [], 0, []⟩).1.actionId =
      (deployPostLoginAction
        ⟨"https://api.example.com", "api-key", "qwickapps-", "qwickapps",
         "https://qwickapps.com", none, none, none⟩
        ⟨false, false⟩ happyClient
        (deployPostLoginAction
          ⟨"https://api.example.com", "api-key", "qwickapps-", "qwickapps",
           "https://qwickapps.com", none, none, none⟩
          ⟨false, false⟩ happyClient ⟨[], [], 0, []⟩).2).1.actionId ∧
    (deployPostLoginAction
      ⟨"https://api.example.com", "api-key", "qwickapps-", "qwickapps",
       "https://qwickapps.com", none, none, none⟩
      ⟨false, false⟩ happyClient ⟨[], [], 0, []⟩).1.actionId =
      some "act_0" := by
  have h := deployPostLoginAction_idempotent
    ⟨"https://api.example.com", "api-key", "qwickapps-", "qwickapps",
     "https://qwickapps.com", none, none, none⟩
    ⟨false, false⟩ ⟨[], [], 0, []⟩ (by simp)
  exact ⟨h.2.2.1, h.2.2.2.1⟩

/-! ### C7 -/

/-- C7 (on the spec-modelled token cache): starting from an empty cache, a
first `getAccessToken` call at `t1` makes exactly one token-endpoint call and
caches the credential with expiry `t1 + expires_in`; a second call at any
`t2` within the token's lifetime returns the cached token, leaves the cache
unchanged, and makes no network call — one network call in total for the two
invocations. -/
theorem getAccessToken_caches_within_lifetime (t1 t2 : Nat)
    (r : TokenEndpointResponse) (resp2 : Except String TokenEndpointResponse)
    (_horder : t1 ≤ t2) (hlife : t2 < t1 + r.expiresIn) :
    getAccessToken t1 none (Except.ok r) =
      (Except.ok r.accessToken,
       some ⟨r.accessToken, t1 + r.expiresIn⟩, 1) ∧
    getAccessToken t2 (some ⟨r.accessToken, t1 + r.expiresIn⟩) resp2 =
      (Except.ok r.accessToken,
       some ⟨r.accessToken, t1 + r.expiresIn⟩, 0) ∧
    (getAccessToken t1 none (Except.ok r)).2.2 +
      (getAccessToken t2 (some ⟨r.accessToken, t1 + r.expiresIn⟩)
        resp2).2.2 = 1 := by
  have h2 : getAccessToken t2 (some ⟨r.accessToken, t1 + r.expiresIn⟩)
      resp2 =
      (Except.ok r.accessToken,
       some ⟨r.accessToken, t1 + r.expiresIn⟩, 0) := by
    simp [getAccessToken, hlife]
  exact ⟨rfl, h2, by rw [h2]; rfl⟩

/-- Witness for C7 at the repository's test scenario: a token with
`expires_in = 86400` fetched at time 0 is served from the cache at time 10
even when the endpoint is down, for one network call in total. -/
theorem getAccessToken_caches_within_lifetime_witness :
    getAccessToken 0 none (Except.ok ⟨"test-token", 86400⟩) =
      (Except.ok "test-token", some ⟨"test-token", 86400⟩, 1) ∧
    getAccessToken 10 (some ⟨"test-token", 86400⟩)
      (Except.error "endpoint down") =
      (Except.ok "test-token", some ⟨"test-token", 86400⟩, 0) := by
  have h := getAccessToken_caches_within_lifetime 0 10
    ⟨"test-token", 86400⟩ (Except.error "endpoint down")
    (by decide) (by decide)
  exact ⟨h.1, h.2.1⟩

/-! ### C9 -/

/-- The bearer half of claim C9 as stated: the sanitized output never
contains a bearer token (every `Bearer <token>` occurrence is redacted). -/
def sanitizerBearerFree : Prop :=
  ∀ msg : String, hasBearerToken (sanitizeErrorMessage msg).data = false

/-- `replaceScan` on an empty input is empty for any fuel. -/
theorem replaceScan_nil (tryM : List Char → Option (List Char))
    (repl : List Char) (f : Nat) : replaceScan tryM repl f [] = [] := by
  cases f <;> rfl

/-- A match at the current position consuming the whole input replaces the
whole input. -/
theorem replaceScan_hit_all (tryM : List Char → Option (List Char))
    (repl : List Char) (f : Nat) (c : Char) (rest : List Char)
    (h : tryM (c :: rest) = some []) :
    replaceScan tryM repl (f + 1) (c :: rest) = repl := by
  simp [replaceScan, h, replaceScan_nil]

/-- A case-insensitive literal pattern that is its own lowercasing matches a
copy of itself and leaves the rest. -/
theorem matchCI_self (p rest : List Char) (h : ∀ c ∈ p, c.toLower = c) :
    matchCI p (p ++ rest) = some rest := by
  induction p with
  | nil => rfl
  | cons c ps ih =>
    rw [List.cons_append]
    simp only [matchCI, h c (List.mem_cons_self c ps), if_true]
    exact ih (fun x hx => h x (List.mem_cons_of_mem c hx))

/-- What is left after a case-insensitive literal match is part of the
input. -/
theorem matchCI_mem (p l r : List Char) (h : matchCI p l = some r) :
    ∀ c ∈ r, c ∈ l := by
  induction p generalizing l with
  | nil =>
    cases h
    exact fun c hc => hc
  | cons q qs ih =>
    cases l with
    | nil => cases h
    | cons c cs =>
      simp only [matchCI] at h
      split at h
      · exact fun x hx => List.mem_cons_of_mem c (ih cs h x hx)
      · cases h

/-- The JSON-secret matcher fails wherever the input does not start with a
double quote. -/
theorem tryMatchJsonSecret_none (c : Char) (rest : List Char)
    (hc : c ≠ '"') : tryMatchJsonSecret (c :: rest) = none := by
  simp [tryMatchJsonSecret, hc]

/-- The JSON-secret pass leaves any quote-free text unchanged. -/
theorem replaceScan_json_id (repl : List Char) (f : Nat) (l : List Char)
    (h : ∀ c ∈ l, c ≠ '"') :
    replaceScan tryMatchJsonSecret repl f l = l := by
  induction f generalizing l with
  | zero => cases l <;> rfl
  | succ f ih =>
    cases l with
    | nil => rfl
    | cons c rest =>
      rw [replaceScan,
        tryMatchJsonSecret_none c rest (h c (List.mem_cons_self c rest))]
      rw [ih rest (fun x hx => h x (List.mem_cons_of_mem c hx))]

/-- The query-secret matcher fails wherever the input has no `=` at all. -/
theorem tryMatchQuerySecret_none (l : List Char)
    (h : ∀ c ∈ l, c ≠ '=') : tryMatchQuerySecret l = none := by
  cases hm : matchCI secretPat l with
  | none => simp [tryMatchQuerySecret, hm]
  | some r =>
    cases r with
    | nil => simp [tryMatchQuerySecret, hm]
    | cons c rs =>
      have hcm : c ∈ l :=
        matchCI_mem secretPat l (c :: rs) hm c (List.mem_cons_self c rs)
      simp [tryMatchQuerySecret, hm, h c hcm]

/-- The query-secret pass leaves any `=`-free text unchanged. -/
theorem replaceScan_query_id (repl : List Char) (f : Nat) (l : List Char)
    (h : ∀ c ∈ l, c ≠ '=') :
    replaceScan tryMatchQuerySecret repl f l = l := by
  induction f generalizing l with
  | zero => cases l <;> rfl
  | succ f ih =>
    cases l with
    | nil => rfl
    | cons c rest =>
      rw [replaceScan, tryMatchQuerySecret_none (c :: rest) h]
      rw [ih rest (fun x hx => h x (List.mem_cons_of_mem c hx))]

/-- `[^"]*"` consumes a quote-free value and its closing quote. -/
theorem matchSecretValue_append (v rest : List Char)
    (h : ∀ c ∈ v, c ≠ '"') :
    matchSecretValue (v ++ '"' :: rest) = some rest := by
  induction v with
  | nil => simp [matchSecretValue]
  | cons c vs ih =>
    rw [List.cons_append]
    simp only [matchSecretValue, h c (List.mem_cons_self c vs), if_false]
    exact ih (fun x hx => h x (List.mem_cons_of_mem c hx))

/-- A character of the bearer-token class is not whitespace. -/
theorem tokChar_not_ws (c : Char) (h : tokChar c = true) : isWS c = false := by
  by_contra hne
  have hws : isWS c = true := by
    revert hne
    cases isWS c <;> simp
  have hcase : ((((c = ' ' ∨ c = '\t') ∨ c = '\n') ∨ c = '\x0d') ∨
      c = '\x0b') ∨ c = '\x0c' := by
    simpa [isWS] using hws
  rcases hcase with ((((rfl | rfl) | rfl) | rfl) | rfl) | rfl <;>
    exact absurd h (by decide)

/-- A character of the bearer-token class is not a double quote. -/
theorem tokChar_ne_quote (c : Char) (h : tokChar c = true) : c ≠ '"' := by
  intro hq
  subst hq
  exact absurd h (by decide)

/-- A character of the bearer-token class is not an equals sign. -/
theorem tokChar_ne_eq (c : Char) (h : tokChar c = true) : c ≠ '=' := by
  intro hq
  subst hq
  exact absurd h (by decide)

/-- `takeWhile` runs through a fully satisfying prefix. -/
theorem takeWhile_append_all (p : Char → Bool) (l₁ l₂ : List Char)
    (h : ∀ c ∈ l₁, p c = true) :
    (l₁ ++ l₂).takeWhile p = l₁ ++ l₂.takeWhile p := by
  induction l₁ with
  | nil => rfl
  | cons c t ih =>
    rw [List.cons_append, List.takeWhile_cons,
      ih (fun x hx => h x (List.mem_cons_of_mem c hx))]
    simp [h c (List.mem_cons_self c t)]

/-- `dropWhile` skips a fully satisfying prefix. -/
theorem dropWhile_append_all (p : Char → Bool) (l₁ l₂ : List Char)
    (h : ∀ c ∈ l₁, p c = true) :
    (l₁ ++ l₂).dropWhile p = l₂.dropWhile p := by
  induction l₁ with
  | nil => rfl
  | cons c t ih =>
    rw [List.cons_append, List.dropWhile_cons]
    simp only [h c (List.mem_cons_self c t), if_true]
    exact ih (fun x hx => h x (List.mem_cons_of_mem c hx))

/-- `dropWhile` empties a fully satisfying list. -/
theorem dropWhile_all (p : Char → Bool) (l : List Char)
    (h : ∀ c ∈ l, p c = true) : l.dropWhile p = [] := by
  induction l with
  | nil => rfl
  | cons c t ih =>
    rw [List.dropWhile_cons]
    simp only [h c (List.mem_cons_self c t), if_true]
    exact ih (fun x hx => h x (List.mem_cons_of_mem c hx))

/-- `skipWS` does not move past a non-whitespace head. -/
theorem skipWS_not_ws (c : Char) (l : List Char) (h : isWS c = false) :
    skipWS (c :: l) = c :: l := by
  simp [skipWS, h]

/-- A JSON-form secret occurrence `"client_secret":"<v>"`. -/
def jsonSecretForm (v : List Char) : List Char :=
  '"' :: (secretPat ++ ('"' :: ':' :: '"' :: (v ++ ['"'])))

/-- A query-form secret occurrence `client_secret=<v>`. -/
def querySecretForm (v : List Char) : List Char :=
  secretPat ++ ('=' :: v)

/-- A value terminator of the query regex (`&` or whitespace) is not a
double quote, so a later pass cannot disturb it. -/
theorem stop_ne_quote (c : Char) (h : c = '&' ∨ isWS c = true) : c ≠ '"' := by
  rcases h with rfl | h
  · decide
  · intro hq
    subst hq
    exact absurd h (by decide)

/-- The JSON-secret matcher consumes a whole JSON-form occurrence and leaves
exactly the trailing context. -/
theorem tryMatchJsonSecret_form (v post : List Char)
    (h : ∀ c ∈ v, c ≠ '"') :
    tryMatchJsonSecret (jsonSecretForm v ++ post) = some post := by
  have hshape : jsonSecretForm v ++ post =
      '"' :: (secretPat ++ ('"' :: ':' :: '"' :: (v ++ '"' :: post))) := by
    simp [jsonSecretForm, List.append_assoc]
  rw [hshape]
  have hm := matchCI_self secretPat ('"' :: ':' :: '"' :: (v ++ '"' :: post))
    (by decide)
  have hskip1 : skipWS (':' :: '"' :: (v ++ '"' :: post)) =
      ':' :: '"' :: (v ++ '"' :: post) := skipWS_not_ws _ _ (by decide)
  have hskip2 : skipWS ('"' :: (v ++ '"' :: post)) =
      '"' :: (v ++ '"' :: post) := skipWS_not_ws _ _ (by decide)
  have hv : matchSecretValue (v ++ '"' :: post) = some post :=
    matchSecretValue_append v post h
  simp [tryMatchJsonSecret, hm, hskip1, hskip2, hv]

/-- The query-secret matcher consumes a whole query-form occurrence whose
value has no terminator characters and stops exactly at a terminated (or
empty) trailing context. -/
theorem tryMatchQuerySecret_form (v post : List Char)
    (hval : ∀ c ∈ v, c ≠ '&' ∧ isWS c = false)
    (hpost : post = [] ∨ ∃ c r, post = c :: r ∧ (c = '&' ∨ isWS c = true)) :
    tryMatchQuerySecret (querySecretForm v ++ post) = some post := by
  have hshape : querySecretForm v ++ post = secretPat ++ ('=' :: (v ++ post)) := by
    simp [querySecretForm]
  rw [hshape]
  have hm := matchCI_self secretPat ('=' :: (v ++ post)) (by decide)
  have hkeep : ∀ c ∈ v, (fun c => !(c = '&' || isWS c)) c = true :=
    fun c hc => by simp [(hval c hc).1, (hval c hc).2]
  have hdrop : (v ++ post).dropWhile (fun c => !(c = '&' || isWS c)) =
      post := by
    rw [dropWhile_append_all _ v post hkeep]
    rcases hpost with rfl | ⟨c, r, rfl, hc⟩
    · rfl
    · rw [List.dropWhile_cons,
        if_neg (by rcases hc with rfl | hws
                   · simp
                   · simp [hws])]
  simp only [tryMatchQuerySecret, hm]
  rw [hdrop]
  simp

/-- The JWT-shape matcher consumes `<seg>.<seg>.<seg>` and leaves exactly a
trailing context that does not extend the third segment. -/
theorem matchJwtTail_jwt (t1 t2 t3 post : List Char) (h1 : t1 ≠ [])
    (h2 : t2 ≠ [])
    (ha1 : ∀ c ∈ t1, tokChar c = true) (ha2 : ∀ c ∈ t2, tokChar c = true)
    (ha3 : ∀ c ∈ t3, tokChar c = true)
    (hpost : post = [] ∨ ∃ c r, post = c :: r ∧ tokChar c = false) :
    matchJwtTail (t1 ++ '.' :: (t2 ++ '.' :: (t3 ++ post))) = some post := by
  have hdot : tokChar '.' = false := by decide
  have hdroppost : post.dropWhile tokChar = post := by
    rcases hpost with rfl | ⟨c, r, rfl, hc⟩
    · rfl
    · rw [List.dropWhile_cons, if_neg (by simp [hc])]
  have htake1 : (t1 ++ '.' :: (t2 ++ '.' :: (t3 ++ post))).takeWhile
      tokChar = t1 := by
    rw [takeWhile_append_all tokChar t1 _ ha1]
    simp [List.takeWhile_cons, hdot]
  have hdrop1 : (t1 ++ '.' :: (t2 ++ '.' :: (t3 ++ post))).dropWhile
      tokChar = '.' :: (t2 ++ '.' :: (t3 ++ post)) := by
    rw [dropWhile_append_all tokChar t1 _ ha1]
    simp [List.dropWhile_cons, hdot]
  have htake2 : (t2 ++ '.' :: (t3 ++ post)).takeWhile tokChar = t2 := by
    rw [takeWhile_append_all tokChar t2 _ ha2]
    simp [List.takeWhile_cons, hdot]
  have hdrop2 : (t2 ++ '.' :: (t3 ++ post)).dropWhile tokChar =
      '.' :: (t3 ++ post) := by
    rw [dropWhile_append_all tokChar t2 _ ha2]
    simp [List.dropWhile_cons, hdot]
  have hdrop3 : (t3 ++ post).dropWhile tokChar = post := by
    rw [dropWhile_append_all tokChar t3 post ha3, hdroppost]
  obtain ⟨c1, t1r, rfl⟩ : ∃ c l, t1 = c :: l := by
    cases t1 with
    | nil => exact absurd rfl h1
    | cons c l => exact ⟨c, l, rfl⟩
  obtain ⟨c2, t2r, rfl⟩ : ∃ c l, t2 = c :: l := by
    cases t2 with
    | nil => exact absurd rfl h2
    | cons c l => exact ⟨c, l, rfl⟩
  simp only [List.cons_append] at htake1 hdrop1 htake2 hdrop2
  simp only [matchJwtTail, List.cons_append, htake1, hdrop1, htake2, hdrop2,
    hdrop3]
  simp

/-- A `Bearer <seg>.<seg>.<seg>` occurrence (the shape the bearer regex
recognizes). -/
def bearerTokenForm (t1 t2 t3 : List Char) : List Char :=
  "Bearer ".data ++ (t1 ++ '.' :: (t2 ++ '.' :: t3))

/-- The bearer matcher consumes a whole `Bearer <jwt>` occurrence and leaves
exactly a trailing context that does not extend the last segment. -/
theorem tryMatchBearer_form (t1 t2 t3 post : List Char) (h1 : t1 ≠ [])
    (h2 : t2 ≠ [])
    (ha1 : ∀ c ∈ t1, tokChar c = true) (ha2 : ∀ c ∈ t2, tokChar c = true)
    (ha3 : ∀ c ∈ t3, tokChar c = true)
    (hpost : post = [] ∨ ∃ c r, post = c :: r ∧ tokChar c = false) :
    tryMatchBearer (bearerTokenForm t1 t2 t3 ++ post) = some post := by
  have hshape : bearerTokenForm t1 t2 t3 ++ post =
      "Bearer ".data ++ (t1 ++ '.' :: (t2 ++ '.' :: (t3 ++ post))) := by
    simp [bearerTokenForm, List.append_assoc]
  rw [hshape]
  have hci : matchCI bearerPat
      ("Bearer ".data ++ (t1 ++ '.' :: (t2 ++ '.' :: (t3 ++ post)))) =
      some (' ' :: (t1 ++ '.' :: (t2 ++ '.' :: (t3 ++ post)))) := rfl
  obtain ⟨c1, t1r, rfl⟩ : ∃ c l, t1 = c :: l := by
    cases t1 with
    | nil => exact absurd rfl h1
    | cons c l => exact ⟨c, l, rfl⟩
  have hskip : skipWS (c1 :: (t1r ++ '.' :: (t2 ++ '.' :: (t3 ++ post)))) =
      c1 :: (t1r ++ '.' :: (t2 ++ '.' :: (t3 ++ post))) :=
    skipWS_not_ws _ _
      (tokChar_not_ws c1 (ha1 c1 (List.mem_cons_self c1 t1r)))
  have hjwt := matchJwtTail_jwt (c1 :: t1r) t2 t3 post h1 h2 ha1 ha2 ha3 hpost
  simp only [List.cons_append] at hci hjwt ⊢
  simp only [tryMatchBearer, hci]
  simp [isWS, hskip, hjwt]

/-- The sanitized output never exceeds 500 characters plus the ellipsis. -/
theorem sanitizeErrorMessage_length_le (msg : String) :
    (sanitizeErrorMessage msg).length ≤ 503 := by
  have key : ∀ l : List Char, (String.mk (truncate500 l)).length ≤ 503 := by
    intro l
    by_cases h : l.length > 500
    · rw [truncate500, if_pos h]
      show (l.take 500 ++ "...".data).length ≤ 503
      simp [List.length_take]
    · rw [truncate500, if_neg h]
      show l.length ≤ 503
      omega
  exact key _

/-! Scan machinery for occurrences inside arbitrary surrounding text: a
prefix none of whose positions can start a match is copied verbatim, a match
consumes its occurrence and the scan continues on the rest, and the fuel of
`replaceScan` is irrelevant as long as it is at least the input length
(every matcher consumes at least one character). -/

/-- A case-insensitive literal match consumes at least the pattern. -/
theorem matchCI_length (p l r : List Char) (h : matchCI p l = some r) :
    r.length ≤ l.length := by
  induction p generalizing l with
  | nil =>
    cases h
    exact le_refl _
  | cons q qs ih =>
    cases l with
    | nil => cases h
    | cons c cs =>
      simp only [matchCI] at h
      split at h
      · exact le_trans (ih cs h) (by simp)
      · cases h

/-- A nonempty case-insensitive literal match consumes at least one
character. -/
theorem matchCI_cons_le (q : Char) (qs : List Char) (c : Char)
    (cs r : List Char) (h : matchCI (q :: qs) (c :: cs) = some r) :
    r.length ≤ cs.length := by
  simp only [matchCI] at h
  split at h
  · exact matchCI_length qs cs r h
  · cases h

/-- `skipWS` never lengthens its input. -/
theorem skipWS_length (l : List Char) : (skipWS l).length ≤ l.length := by
  induction l with
  | nil => exact le_refl _
  | cons c cs ih =>
    rw [skipWS]
    split
    · exact le_trans ih (by simp)
    · exact le_refl _

/-- `matchSecretValue` never lengthens its input. -/
theorem matchSecretValue_length (l r : List Char)
    (h : matchSecretValue l = some r) : r.length ≤ l.length := by
  induction l with
  | nil => cases h
  | cons c cs ih =>
    simp only [matchSecretValue] at h
    split at h
    · cases h
      simp
    · exact le_trans (ih h) (by simp)

/-- `dropWhile` never lengthens its input. -/
theorem dropWhile_length_le (p : Char → Bool) (m : List Char) :
    (m.dropWhile p).length ≤ m.length := by
  induction m with
  | nil => exact le_refl _
  | cons c cs ih =>
    rw [List.dropWhile_cons]
    split
    · exact le_trans ih (by simp)
    · exact le_refl _

/-- `matchJwtTail` never lengthens its input. -/
theorem matchJwtTail_length (l r : List Char)
    (h : matchJwtTail l = some r) : r.length ≤ l.length := by
  simp only [matchJwtTail] at h
  cases htw : l.takeWhile tokChar with
  | nil => simp [htw] at h
  | cons a ta =>
    cases hdw : l.dropWhile tokChar with
    | nil => simp [htw, hdw] at h
    | cons c r2 =>
      simp only [htw, hdw] at h
      by_cases hc : c = '.'
      · rw [if_pos hc] at h
        cases htw2 : r2.takeWhile tokChar with
        | nil => simp [htw2] at h
        | cons b tb =>
          cases hdw2 : r2.dropWhile tokChar with
          | nil => simp [htw2, hdw2] at h
          | cons c2 r4 =>
            simp only [htw2, hdw2] at h
            by_cases hc2 : c2 = '.'
            · rw [if_pos hc2] at h
              cases h
              have h4 := dropWhile_length_le tokChar l
              rw [hdw] at h4
              have h5 := dropWhile_length_le tokChar r2
              rw [hdw2] at h5
              have h6 := dropWhile_length_le tokChar r4
              simp only [List.length_cons] at h4 h5
              omega
            · rw [if_neg hc2] at h
              cases h
      · rw [if_neg hc] at h
        cases h

/-- The JSON-secret matcher consumes at least one character. -/
theorem tryMatchJsonSecret_consumes (c : Char) (rest r : List Char)
    (h : tryMatchJsonSecret (c :: rest) = some r) : r.length ≤ rest.length := by
  simp only [tryMatchJsonSecret] at h
  by_cases hc : c = '"'
  · rw [if_pos hc] at h
    cases hm : matchCI secretPat rest with
    | none => simp [hm] at h
    | some r1 =>
      cases r1 with
      | nil => simp [hm] at h
      | cons c1 r2 =>
        simp only [hm] at h
        have hr2 : r2.length + 1 ≤ rest.length := by
          have := matchCI_length secretPat rest (c1 :: r2) hm
          simpa using this
        by_cases hc1 : c1 = '"'
        · rw [if_pos hc1] at h
          cases hsk : skipWS r2 with
          | nil => simp [hsk] at h
          | cons c2 r3 =>
            simp only [hsk] at h
            have hr3 : r3.length + 1 ≤ r2.length := by
              have := skipWS_length r2
              rw [hsk] at this
              simpa using this
            by_cases hc2 : c2 = ':'
            · rw [if_pos hc2] at h
              cases hsk2 : skipWS r3 with
              | nil => simp [hsk2] at h
              | cons c3 r4 =>
                simp only [hsk2] at h
                have hr4 : r4.length + 1 ≤ r3.length := by
                  have := skipWS_length r3
                  rw [hsk2] at this
                  simpa using this
                by_cases hc3 : c3 = '"'
                · rw [if_pos hc3] at h
                  have := matchSecretValue_length r4 r h
                  omega
                · rw [if_neg hc3] at h
                  cases h
            · rw [if_neg hc2] at h
              cases h
        · rw [if_neg hc1] at h
          cases h
  · rw [if_neg hc] at h
    cases h

/-- The query-secret matcher consumes at least one character. -/
theorem tryMatchQuerySecret_consumes (c : Char) (rest r : List Char)
    (h : tryMatchQuerySecret (c :: rest) = some r) :
    r.length ≤ rest.length := by
  simp only [tryMatchQuerySecret] at h
  cases hm : matchCI secretPat (c :: rest) with
  | none => simp [hm] at h
  | some r1 =>
    cases r1 with
    | nil => simp [hm] at h
    | cons c2 r2 =>
      simp only [hm] at h
      have hr2 : r2.length + 1 ≤ rest.length := by
        have := matchCI_cons_le 'c'
          ['l', 'i', 'e', 'n', 't', '_', 's', 'e', 'c', 'r', 'e', 't']
          c rest (c2 :: r2) (by simpa [secretPat] using hm)
        simpa using this
      by_cases hc2 : c2 = '='
      · rw [if_pos hc2] at h
        cases h
        have := dropWhile_length_le (fun c => !(c = '&' || isWS c)) r2
        omega
      · rw [if_neg hc2] at h
        cases h

/-- The bearer matcher consumes at least one character. -/
theorem tryMatchBearer_consumes (c : Char) (rest r : List Char)
    (h : tryMatchBearer (c :: rest) = some r) : r.length ≤ rest.length := by
  simp only [tryMatchBearer] at h
  cases hm : matchCI bearerPat (c :: rest) with
  | none => simp [hm] at h
  | some r1 =>
    cases r1 with
    | nil => simp [hm] at h
    | cons w ws =>
      simp only [hm] at h
      have hws : ws.length + 1 ≤ rest.length := by
        have := matchCI_cons_le 'b' ['e', 'a', 'r', 'e', 'r'] c rest
          (w :: ws) (by simpa [bearerPat] using hm)
        simpa using this
      by_cases hw : isWS w = true
      · rw [if_pos hw] at h
        have h1 := matchJwtTail_length (skipWS ws) r h
        have h2 := skipWS_length ws
        omega
      · rw [if_neg hw] at h
        cases h

/-- `replaceScan` does not depend on the fuel once the fuel covers the input
(for matchers that always consume at least one character). -/
theorem replaceScan_fuel (tryM : List Char → Option (List Char))
    (repl : List Char)
    (hcons : ∀ c rest r, tryM (c :: rest) = some r → r.length ≤ rest.length) :
    ∀ (f g : Nat) (l : List Char), l.length ≤ f → l.length ≤ g →
      replaceScan tryM repl f l = replaceScan tryM repl g l := by
  intro f
  induction f with
  | zero =>
    intro g l hf _
    have : l = [] := List.eq_nil_of_length_eq_zero (Nat.le_zero.mp hf)
    subst this
    rw [replaceScan_nil, replaceScan_nil]
  | succ f ih =>
    intro g l hf hg
    cases l with
    | nil => rw [replaceScan_nil, replaceScan_nil]
    | cons c rest =>
      obtain ⟨g1, rfl⟩ : ∃ g1, g = g1 + 1 := by
        cases g with
        | zero => simp at hg
        | succ g1 => exact ⟨g1, rfl⟩
      have hf1 : rest.length ≤ f := by
        simp only [List.length_cons] at hf
        omega
      have hg1 : rest.length ≤ g1 := by
        simp only [List.length_cons] at hg
        omega
      cases htry : tryM (c :: rest) with
      | none =>
        simp only [replaceScan, htry]
        exact congrArg _ (ih g1 rest hf1 hg1)
      | some r =>
        simp only [replaceScan, htry]
        have hr := hcons c rest r htry
        exact congrArg _ (ih g1 r (le_trans hr hf1) (le_trans hr hg1))

/-- A prefix at none of whose positions the matcher can start a match —
whatever follows — is copied verbatim by the scan. -/
theorem replaceScan_inert_front (tryM : List Char → Option (List Char))
    (repl : List Char) :
    ∀ A : List Char,
      (∀ i, i < A.length → ∀ Y : List Char, tryM (A.drop i ++ Y) = none) →
      ∀ (g : Nat) (Y : List Char),
        replaceScan tryM repl (A.length + g) (A ++ Y) =
          A ++ replaceScan tryM repl g Y := by
  intro A
  induction A with
  | nil =>
    intro _ g Y
    simp
  | cons c A1 ih =>
    intro hA g Y
    have h0 : tryM (c :: (A1 ++ Y)) = none := by
      have := hA 0 (by simp) Y
      simpa using this
    have hA1 : ∀ i, i < A1.length → ∀ Y : List Char,
        tryM (A1.drop i ++ Y) = none := by
      intro i hi Y
      have := hA (i + 1) (by simp; omega) Y
      simpa using this
    have hlen : (c :: A1).length + g = (A1.length + g) + 1 := by
      simp only [List.length_cons]
      omega
    rw [List.cons_append, hlen]
    simp only [replaceScan, h0]
    exact congrArg _ (ih hA1 g Y)

/-- `replaceAll` over an inert prefix. -/
theorem replaceAll_inert_front (tryM : List Char → Option (List Char))
    (repl A : List Char)
    (hA : ∀ i, i < A.length → ∀ Y : List Char, tryM (A.drop i ++ Y) = none)
    (Y : List Char) :
    replaceAll tryM repl (A ++ Y) = A ++ replaceAll tryM repl Y := by
  have := replaceScan_inert_front tryM repl A hA Y.length Y
  simpa [replaceAll, List.length_append] using this

/-- `replaceAll` over a leading occurrence: the occurrence is replaced and
the scan continues over the rest. -/
theorem replaceAll_hit_front (tryM : List Char → Option (List Char))
    (repl : List Char)
    (hcons : ∀ c rest r, tryM (c :: rest) = some r → r.length ≤ rest.length)
    (F post : List Char) (hF : F ≠ [])
    (h : tryM (F ++ post) = some post) :
    replaceAll tryM repl (F ++ post) = repl ++ replaceAll tryM repl post := by
  obtain ⟨c, F1, rfl⟩ : ∃ c F1, F = c :: F1 := by
    cases F with
    | nil => exact absurd rfl hF
    | cons c F1 => exact ⟨c, F1, rfl⟩
  rw [List.cons_append] at h
  simp only [replaceAll, List.cons_append, List.length_cons]
  simp only [replaceScan, h]
  refine congrArg _ ?_
  exact replaceScan_fuel tryM repl hcons _ _ post
    (by simp only [List.length_append]; omega) (le_refl _)

/-- An inert-position certificate from a first-character condition. -/
theorem inert_of_firstChar (tryM : List Char → Option (List Char))
    (P : Char → Prop) (A : List Char) (hP : ∀ c ∈ A, P c)
    (hfail : ∀ c rest, P c → tryM (c :: rest) = none) :
    ∀ i, i < A.length → ∀ Y : List Char, tryM (A.drop i ++ Y) = none := by
  intro i hi Y
  rw [List.drop_eq_getElem_cons hi, List.cons_append]
  exact hfail _ _ (hP _ (A.getElem_mem hi))

/-- The query-secret matcher fails at any position whose first character is
not a (case-insensitive) `c`. -/
theorem tryMatchQuerySecret_none_first (c : Char) (rest : List Char)
    (h : ¬ c.toLower = 'c') : tryMatchQuerySecret (c :: rest) = none := by
  have hm : matchCI secretPat (c :: rest) = none := by
    simp only [secretPat, matchCI]
    rw [if_neg h]
  simp [tryMatchQuerySecret, hm]

/-- The bearer matcher fails at any position whose first character is not a
(case-insensitive) `b`. -/
theorem tryMatchBearer_none_first (c : Char) (rest : List Char)
    (h : ¬ c.toLower = 'b') : tryMatchBearer (c :: rest) = none := by
  have hm : matchCI bearerPat (c :: rest) = none := by
    simp only [bearerPat, matchCI]
    rw [if_neg h]
  simp [tryMatchBearer, hm]

/-- No query-form match can start anywhere inside the JSON replacement text
(the only `client_secret` it contains is followed by `"`, not `=`). -/
theorem jsonRedacted_query_inert :
    ∀ i, i < jsonRedactedText.length → ∀ Y : List Char,
      tryMatchQuerySecret (jsonRedactedText.drop i ++ Y) = none := by
  intro i hi Y
  have h28 : jsonRedactedText.length = 28 := rfl
  rw [h28] at hi
  interval_cases i <;> rfl

/-- A character that is inert for all three passes: it cannot begin a
JSON-form match, a query-form match, or a bearer match. -/
def sanitizerInert (c : Char) : Prop :=
  c ≠ '"' ∧ ¬ c.toLower = 'c' ∧ ¬ c.toLower = 'b'

instance (c : Char) : Decidable (sanitizerInert c) :=
  inferInstanceAs (Decidable (c ≠ '"' ∧ ¬ c.toLower = 'c' ∧ ¬ c.toLower = 'b'))

/-- The scan head is preserved over a non-matching first character. -/
theorem replaceAll_cons_none (tryM : List Char → Option (List Char))
    (repl : List Char) (c : Char) (rest : List Char)
    (h : tryM (c :: rest) = none) :
    replaceAll tryM repl (c :: rest) = c :: replaceAll tryM repl rest := by
  simp only [replaceAll, List.length_cons]
  simp only [replaceScan, h]

/-- A JSON-form secret occurrence anywhere in an error text — after a
sanitizer-inert prefix and before an arbitrary remainder — is replaced by
the `[REDACTED]` marker, and the remainder is sanitized by the same three
passes. -/
theorem sanitize_json_in_context (pre v post : List Char)
    (hpre : ∀ c ∈ pre, sanitizerInert c)
    (hv : ∀ c ∈ v, c ≠ '"') :
    sanitizeErrorMessage (String.mk (pre ++ jsonSecretForm v ++ post)) =
      String.mk (truncate500
        (pre ++ jsonRedactedText ++
          bearerPass (queryPass (jsonPass post)))) := by
  have hpre1 := inert_of_firstChar tryMatchJsonSecret (fun c => c ≠ '"') pre
    (fun c hc => (hpre c hc).1)
    (fun c rest hc => tryMatchJsonSecret_none c rest hc)
  have hpre2 := inert_of_firstChar tryMatchQuerySecret
    (fun c => ¬ c.toLower = 'c') pre (fun c hc => (hpre c hc).2.1)
    (fun c rest hc => tryMatchQuerySecret_none_first c rest hc)
  have hpre3 := inert_of_firstChar tryMatchBearer
    (fun c => ¬ c.toLower = 'b') pre (fun c hc => (hpre c hc).2.2)
    (fun c rest hc => tryMatchBearer_none_first c rest hc)
  have hjr3 := inert_of_firstChar tryMatchBearer
    (fun c => ¬ c.toLower = 'b') jsonRedactedText (by decide)
    (fun c rest hc => tryMatchBearer_none_first c rest hc)
  have hform : jsonSecretForm v ≠ [] := by simp [jsonSecretForm]
  have h1 : jsonPass (pre ++ jsonSecretForm v ++ post) =
      pre ++ (jsonRedactedText ++ jsonPass post) := by
    rw [List.append_assoc]
    simp only [jsonPass]
    rw [replaceAll_inert_front tryMatchJsonSecret jsonRedactedText pre hpre1]
    rw [replaceAll_hit_front tryMatchJsonSecret jsonRedactedText
      tryMatchJsonSecret_consumes (jsonSecretForm v) post hform
      (tryMatchJsonSecret_form v post hv)]
  have h2 : queryPass (pre ++ (jsonRedactedText ++ jsonPass post)) =
      pre ++ (jsonRedactedText ++ queryPass (jsonPass post)) := by
    simp only [queryPass]
    rw [replaceAll_inert_front tryMatchQuerySecret queryRedactedText pre
      hpre2]
    rw [replaceAll_inert_front tryMatchQuerySecret queryRedactedText
      jsonRedactedText jsonRedacted_query_inert]
  have h3 : bearerPass
      (pre ++ (jsonRedactedText ++ queryPass (jsonPass post))) =
      pre ++ (jsonRedactedText ++ bearerPass (queryPass (jsonPass post))) := by
    simp only [bearerPass]
    rw [replaceAll_inert_front tryMatchBearer bearerRedactedText pre hpre3]
    rw [replaceAll_inert_front tryMatchBearer bearerRedactedText
      jsonRedactedText hjr3]
  show String.mk (truncate500 (bearerPass (queryPass
    (jsonPass (pre ++ jsonSecretForm v ++ post))))) = _
  rw [h1, h2, h3, ← List.append_assoc]

/-- A query-form secret occurrence anywhere in an error text — after a
sanitizer-inert prefix and before a remainder that starts with a value
terminator — is replaced by the `[REDACTED]` marker, and the remainder is
sanitized by the same three passes. -/
theorem sanitize_query_in_context (pre v post : List Char)
    (hpre : ∀ c ∈ pre, sanitizerInert c)
    (hq : ∀ c ∈ v, c ≠ '"')
    (hval : ∀ c ∈ v, c ≠ '&' ∧ isWS c = false)
    (hpost : post = [] ∨ ∃ c r, post = c :: r ∧ (c = '&' ∨ isWS c = true)) :
    sanitizeErrorMessage (String.mk (pre ++ querySecretForm v ++ post)) =
      String.mk (truncate500
        (pre ++ queryRedactedText ++
          bearerPass (queryPass (jsonPass post)))) := by
  have hpre2 := inert_of_firstChar tryMatchQuerySecret
    (fun c => ¬ c.toLower = 'c') pre (fun c hc => (hpre c hc).2.1)
    (fun c rest hc => tryMatchQuerySecret_none_first c rest hc)
  have hpre3 := inert_of_firstChar tryMatchBearer
    (fun c => ¬ c.toLower = 'b') pre (fun c hc => (hpre c hc).2.2)
    (fun c rest hc => tryMatchBearer_none_first c rest hc)
  have hA1 := inert_of_firstChar tryMatchJsonSecret (fun c => c ≠ '"')
    (pre ++ querySecretForm v)
    (by
      intro c hc
      rcases List.mem_append.mp hc with h | h
      · exact (hpre c h).1
      · simp only [querySecretForm, List.mem_append, List.mem_cons] at h
        rcases h with h | h | h
        · exact (by decide : ∀ x ∈ secretPat, x ≠ '"') c h
        · subst h; decide
        · exact hq c h)
    (fun c rest hc => tryMatchJsonSecret_none c rest hc)
  have hqr3 := inert_of_firstChar tryMatchBearer
    (fun c => ¬ c.toLower = 'b') queryRedactedText (by decide)
    (fun c rest hc => tryMatchBearer_none_first c rest hc)
  have hform : querySecretForm v ≠ [] := by simp [querySecretForm, secretPat]
  have hpost' : jsonPass post = [] ∨
      ∃ c r, jsonPass post = c :: r ∧ (c = '&' ∨ isWS c = true) := by
    rcases hpost with rfl | ⟨c, r, rfl, hc⟩
    · exact Or.inl rfl
    · refine Or.inr ⟨c, replaceAll tryMatchJsonSecret jsonRedactedText r,
        ?_, hc⟩
      exact replaceAll_cons_none tryMatchJsonSecret jsonRedactedText c r
        (tryMatchJsonSecret_none c r (stop_ne_quote c hc))
  have hhit := tryMatchQuerySecret_form v (jsonPass post) hval hpost'
  have h1 : jsonPass (pre ++ querySecretForm v ++ post) =
      (pre ++ querySecretForm v) ++ jsonPass post := by
    simp only [jsonPass]
    exact replaceAll_inert_front tryMatchJsonSecret jsonRedactedText
      (pre ++ querySecretForm v) hA1 post
  have h2 : queryPass ((pre ++ querySecretForm v) ++ jsonPass post) =
      pre ++ (queryRedactedText ++ queryPass (jsonPass post)) := by
    rw [List.append_assoc]
    simp only [queryPass]
    rw [replaceAll_inert_front tryMatchQuerySecret queryRedactedText pre
      hpre2]
    rw [replaceAll_hit_front tryMatchQuerySecret queryRedactedText
      tryMatchQuerySecret_consumes (querySecretForm v) (jsonPass post) hform
      hhit]
  have h3 : bearerPass
      (pre ++ (queryRedactedText ++ queryPass (jsonPass post))) =
      pre ++ (queryRedactedText ++ bearerPass (queryPass (jsonPass post))) := by
    simp only [bearerPass]
    rw [replaceAll_inert_front tryMatchBearer bearerRedactedText pre hpre3]
    rw [replaceAll_inert_front tryMatchBearer bearerRedactedText
      queryRedactedText hqr3]
  show String.mk (truncate500 (bearerPass (queryPass
    (jsonPass (pre ++ querySecretForm v ++ post))))) = _
  rw [h1, h2, h3, ← List.append_assoc]

/-- A JWT-shaped bearer occurrence anywhere in an error text — after a
sanitizer-inert prefix, with segments free of the letter `c` (so no
client-secret match can begin inside them), and before a remainder that does
not extend the last segment — is replaced by the `[REDACTED]` marker, and
the remainder is sanitized by the same three passes. -/
theorem sanitize_bearer_in_context (pre t1 t2 t3 post : List Char)
    (hpre : ∀ c ∈ pre, sanitizerInert c)
    (h1 : t1 ≠ []) (h2 : t2 ≠ [])
    (ha1 : ∀ c ∈ t1, tokChar c = true) (ha2 : ∀ c ∈ t2, tokChar c = true)
    (ha3 : ∀ c ∈ t3, tokChar c = true)
    (hc1 : ∀ c ∈ t1, ¬ c.toLower = 'c') (hc2 : ∀ c ∈ t2, ¬ c.toLower = 'c')
    (hc3 : ∀ c ∈ t3, ¬ c.toLower = 'c')
    (hpost : post = [] ∨ ∃ c r, post = c :: r ∧ tokChar c = false ∧
      c ≠ '"' ∧ ¬ c.toLower = 'c') :
    sanitizeErrorMessage
      (String.mk (pre ++ bearerTokenForm t1 t2 t3 ++ post)) =
      String.mk (truncate500
        (pre ++ bearerRedactedText ++
          bearerPass (queryPass (jsonPass post)))) := by
  have hpre3 := inert_of_firstChar tryMatchBearer
    (fun c => ¬ c.toLower = 'b') pre (fun c hc => (hpre c hc).2.2)
    (fun c rest hc => tryMatchBearer_none_first c rest hc)
  have hbmem : ∀ c ∈ bearerTokenForm t1 t2 t3, c ≠ '"' ∧ ¬ c.toLower = 'c' := by
    intro c hc
    simp only [bearerTokenForm, List.mem_append, List.mem_cons] at hc
    rcases hc with h | h | h | h | h | h
    · have hm : c ∈ (['B', 'e', 'a', 'r', 'e', 'r', ' '] : List Char) := by
        simpa using h
      exact (by decide :
        ∀ x ∈ (['B', 'e', 'a', 'r', 'e', 'r', ' '] : List Char),
          x ≠ '"' ∧ ¬ x.toLower = 'c') c hm
    · exact ⟨tokChar_ne_quote c (ha1 c h), hc1 c h⟩
    · subst h; exact ⟨by decide, by decide⟩
    · exact ⟨tokChar_ne_quote c (ha2 c h), hc2 c h⟩
    · subst h; exact ⟨by decide, by decide⟩
    · exact ⟨tokChar_ne_quote c (ha3 c h), hc3 c h⟩
  have hA1 := inert_of_firstChar tryMatchJsonSecret (fun c => c ≠ '"')
    (pre ++ bearerTokenForm t1 t2 t3)
    (by
      intro c hc
      rcases List.mem_append.mp hc with h | h
      · exact (hpre c h).1
      · exact (hbmem c h).1)
    (fun c rest hc => tryMatchJsonSecret_none c rest hc)
  have hA2 := inert_of_firstChar tryMatchQuerySecret
    (fun c => ¬ c.toLower = 'c') (pre ++ bearerTokenForm t1 t2 t3)
    (by
      intro c hc
      rcases List.mem_append.mp hc with h | h
      · exact (hpre c h).2.1
      · exact (hbmem c h).2)
    (fun c rest hc => tryMatchQuerySecret_none_first c rest hc)
  have hform : bearerTokenForm t1 t2 t3 ≠ [] := by
    simp only [bearerTokenForm]
    exact List.append_ne_nil_of_left_ne_nil (by decide) _
  have hX : queryPass (jsonPass post) = [] ∨
      ∃ c r, queryPass (jsonPass post) = c :: r ∧ tokChar c = false := by
    rcases hpost with rfl | ⟨c, r, rfl, htok, hcq, hcc⟩
    · exact Or.inl rfl
    · have hj : jsonPass (c :: r) =
          c :: replaceAll tryMatchJsonSecret jsonRedactedText r :=
        replaceAll_cons_none tryMatchJsonSecret jsonRedactedText c r
          (tryMatchJsonSecret_none c r hcq)
      have hqp : queryPass (jsonPass (c :: r)) =
          c :: replaceAll tryMatchQuerySecret queryRedactedText
            (replaceAll tryMatchJsonSecret jsonRedactedText r) := by
        rw [hj]
        exact replaceAll_cons_none tryMatchQuerySecret queryRedactedText c _
          (tryMatchQuerySecret_none_first c _ hcc)
      exact Or.inr ⟨c, _, hqp, htok⟩
  have hhit := tryMatchBearer_form t1 t2 t3 (queryPass (jsonPass post))
    h1 h2 ha1 ha2 ha3 hX
  have hs1 : jsonPass (pre ++ bearerTokenForm t1 t2 t3 ++ post) =
      (pre ++ bearerTokenForm t1 t2 t3) ++ jsonPass post := by
    simp only [jsonPass]
    exact replaceAll_inert_front tryMatchJsonSecret jsonRedactedText
      (pre ++ bearerTokenForm t1 t2 t3) hA1 post
  have hs2 : queryPass ((pre ++ bearerTokenForm t1 t2 t3) ++ jsonPass post) =
      (pre ++ bearerTokenForm t1 t2 t3) ++ queryPass (jsonPass post) := by
    simp only [queryPass]
    exact replaceAll_inert_front tryMatchQuerySecret queryRedactedText
      (pre ++ bearerTokenForm t1 t2 t3) hA2 (jsonPass post)
  have hs3 : bearerPass
      ((pre ++ bearerTokenForm t1 t2 t3) ++ queryPass (jsonPass post)) =
      pre ++ (bearerRedactedText ++ bearerPass (queryPass (jsonPass post))) := by
    rw [List.append_assoc]
    simp only [bearerPass]
    rw [replaceAll_inert_front tryMatchBearer bearerRedactedText pre hpre3]
    rw [replaceAll_hit_front tryMatchBearer bearerRedactedText
      tryMatchBearer_consumes (bearerTokenForm t1 t2 t3)
      (queryPass (jsonPass post)) hform hhit]
  show String.mk (truncate500 (bearerPass (queryPass
    (jsonPass (pre ++ bearerTokenForm t1 t2 t3 ++ post))))) = _
  rw [hs1, hs2, hs3, ← List.append_assoc]

end Auth0Mgmt
